import Mathlib

/-!
# Verification of `https-expresses.js` (single-process TLS front door)

Shallow embedding of the routing / discovery / configuration core of
`https-expresses.js` (the active first part of the file).  Strings are
modelled through their character lists (`String.data`), and JavaScript
string primitives (`trim`, `split`, `toLowerCase`, prefix/suffix tests,
the regex replacements actually used by the source) are given explicit
executable definitions over `List Char`.
-/

namespace HttpsExpresses

/-! ## JavaScript string primitives used by the source -/

/-- Whitespace characters relevant to `String.prototype.trim` for the
inputs handled by this program (space, tab, CR, LF). -/
def isJsWhitespace (c : Char) : Bool :=
  c = ' ' || c = '\t' || c = '\r' || c = '\n'

/-- `s.trim()` on a character list: drop whitespace from both ends. -/
def jsTrim (l : List Char) : List Char :=
  ((l.dropWhile isJsWhitespace).reverse.dropWhile isJsWhitespace).reverse

/-- ASCII lowercasing, `s.toLowerCase()` for the ASCII inputs used here. -/
def lowerL (l : List Char) : List Char :=
  l.map Char.toLower

/-- `s.split(sep)[0]`: the characters before the first occurrence of `sep`. -/
def firstTok (sep : Char) (l : List Char) : List Char :=
  l.takeWhile (fun c => ¬ (c = sep))

/-- `s.split(sep)` for a single-character separator (no regex). -/
def splitOnCharL (sep : Char) : List Char → List (List Char)
  | [] => [[]]
  | c :: rest =>
    if c = sep then
      [] :: splitOnCharL sep rest
    else
      match splitOnCharL sep rest with
      | [] => [[c]]
      | h :: t => (c :: h) :: t

/-- `contents.split(/\r?\n/)`, scanning left to right: a separator is a
newline optionally preceded by a carriage return.  `acc` holds the current
line reversed. -/
def splitLinesAux : List Char → List Char → List (List Char)
  | [], acc => [acc.reverse]
  | c :: rest, acc =>
    if c = '\n' then
      (match acc with
       | '\r' :: t => t.reverse
       | _ => acc.reverse) :: splitLinesAux rest []
    else
      splitLinesAux rest (c :: acc)

/-- `contents.split(/\r?\n/)`. -/
def splitLinesL (l : List Char) : List (List Char) :=
  splitLinesAux l []

/-- `lines.join('\n')`. -/
def joinLinesL : List (List Char) → List Char
  | [] => []
  | [l] => l
  | l :: ls => l ++ '\n' :: joinLinesL ls

/-! ## `sanitizeDomain` (source line 33)

`function sanitizeDomain(value){let domain=String(value||'').trim();
domain=domain.replace(/^https?:\/\//i,'');domain=domain.replace(/\/+$/,'');
return domain;}` -/

/-- `domain.replace(/^https?:\/\//i,'')`: strip one leading scheme,
`https://` preferred over `http://` (the regex is greedy on `s?`). -/
def stripSchemePrefix (l : List Char) : List Char :=
  if "https://".data.isPrefixOf (lowerL l) then l.drop 8
  else if "http://".data.isPrefixOf (lowerL l) then l.drop 7
  else l

/-- `domain.replace(/\/+$/,'')`: remove every trailing `/`. -/
def stripTrailingSlashes (l : List Char) : List Char :=
  (l.reverse.dropWhile (fun c => c = '/')).reverse

/-- `sanitizeDomain` over a character list. -/
def sanitizeDomainL (l : List Char) : List Char :=
  stripTrailingSlashes (stripSchemePrefix (jsTrim l))

/-- `sanitizeDomain` (source line 33). -/
def sanitizeDomain (value : String) : String :=
  ⟨sanitizeDomainL value.data⟩

/-! ## `domainMatchesPattern` (source lines 452–461) -/

/-- `domainMatchesPattern(domain, pattern)` (source lines 452–461):
exact match after lowercasing, or a `*.`-wildcard whose dotted suffix the
candidate must end with while being strictly longer than it. -/
def domainMatchesPattern (domain pattern : String) : Bool :=
  let d := lowerL domain.data
  let p := lowerL pattern.data
  if d = [] ∨ p = [] then false
  else if ['*', '.'].isPrefixOf p then
    let suffix := p.drop 1
    suffix.isSuffixOf d && decide (suffix.length < d.length)
  else d = p

/-! ## Routing table (`buildDomainAppMap`, source lines 614–633) -/

/-- Behaviour of one invoked handler (`app(req, res, next)`): it either
terminates the response, calls its continuation with no error, calls it
with a truthy error, or throws synchronously. -/
inductive HAction where
  | respond (status : Nat) (body : String)
  | defer
  | deferErr
  | throwE
deriving DecidableEq

/-- One element of a per-hostname handler list:
`{ app, source: filename, kind: effectiveKind }` (source line 623). -/
structure Mapping where
  app : HAction
  source : String
  kind : String
deriving DecidableEq

/-- A JavaScript `Map` from hostname to handler list, as an ordered
association list with unique keys. -/
def DMap := List (String × List Mapping)

/-- `map.get(key) || []` (source line 622 / 660). -/
def mapGetD : DMap → String → List Mapping
  | [], _ => []
  | (k, v) :: rest, key => if k = key then v else mapGetD rest key

/-- `map.set(key, value)`: replace the binding in place, or append it. -/
def mapSet : DMap → String → List Mapping → DMap
  | [], key, v => [(key, v)]
  | (k, w) :: rest, key, v =>
    if k = key then (key, v) :: rest else (k, w) :: mapSet rest key v

/-- A descriptor handed to `buildDomainAppMap`:
`{domains, app, filename, kind}` (source line 617). -/
structure AppDescriptor where
  domains : List String
  app : HAction
  filename : String
  kind : String
deriving DecidableEq

/-- `String(domain).trim().toLowerCase()` (source line 620). -/
def normalizeDomain (d : String) : String :=
  ⟨lowerL (jsTrim d.data)⟩

/-- `effectiveKind = kindOverride || kind || 'express'` (source line 618),
with the empty string as the falsy value. -/
def effectiveKind (kindOverride : String) (d : AppDescriptor) : String :=
  if kindOverride ≠ "" then kindOverride
  else if d.kind ≠ "" then d.kind
  else "express"

/-- Attach one descriptor's domains to the map (inner `forEach`, source
lines 619–625): skip empty normalized domains, append to the existing
per-hostname list. -/
def attachOne (kindOverride : String) (m : DMap) (d : AppDescriptor) : DMap :=
  d.domains.foldl
    (fun m domain =>
      let normalized := normalizeDomain domain
      if normalized = "" then m
      else mapSet m normalized
        (mapGetD m normalized ++ [⟨d.app, d.filename, effectiveKind kindOverride d⟩]))
    m

/-- `attachDescriptors(descriptors, kindOverride)` (source lines 616–627). -/
def attachDescriptors (kindOverride : String) (descriptors : List AppDescriptor)
    (m : DMap) : DMap :=
  descriptors.foldl (attachOne kindOverride) m

/-- `buildDomainAppMap` (source lines 614–633): proxies first, then
statics, then express servers. -/
def buildDomainAppMap (serverDescriptors staticAppDescriptors proxyAppDescriptors :
    List AppDescriptor) : DMap :=
  attachDescriptors "express" serverDescriptors
    (attachDescriptors "static" staticAppDescriptors
      (attachDescriptors "proxy" proxyAppDescriptors []))

/-- The per-hostname entries a descriptor list contributes, in discovery
order: one entry per domain occurrence normalizing to `h`. -/
def entriesFor (kindOverride : String) (descriptors : List AppDescriptor)
    (h : String) : List Mapping :=
  if h = "" then []
  else
    descriptors.foldr
      (fun d acc =>
        (d.domains.filter (fun dom => normalizeDomain dom = h)).map
          (fun _ => ⟨d.app, d.filename, effectiveKind kindOverride d⟩) ++ acc)
      []

/-! ## Certificate entries and the certificate-domain set
(`buildCertDomainSet`, source lines 649–654) -/

/-- A loaded certificate entry; only the derived domain list matters for
routing and for the configuration file's cert annotation. -/
structure CertEntry where
  domains : List String
deriving DecidableEq

/-- `buildCertDomainSet(ee)` (source lines 649–654): the set of nonempty
trimmed lowercased domains, modelled as a duplicate-free list. -/
def buildCertDomainSet (ee : List CertEntry) : List String :=
  ee.foldl
    (fun s e =>
      e.domains.foldl
        (fun s d =>
          let n := normalizeDomain d
          if n = "" then s
          else if s.contains n then s
          else s ++ [n])
        s)
    []

/-- `hasCertificateForDomain(domain, certEntries)` (source lines 463–465). -/
def hasCertificateForDomain (domain : String) (certEntries : List CertEntry) : Bool :=
  certEntries.any (fun e => e.domains.any (fun pattern => domainMatchesPattern domain pattern))

/-! ## Request dispatcher (`createRequestHandler`, source lines 656–698)

The per-request behaviour is modelled as a pure function producing the
final status and body together with the ordered list of observable
events: response headers set by the dispatcher, handler invocations,
error log lines, and the terminal `res.end`. -/

/-- An observable dispatcher event, in program order. -/
inductive Event where
  | setHeader (name value : String)
  | invoke (source : String)
  | logErr (hostname source : String)
  | respondE (status : Nat) (body : String)
deriving DecidableEq

/-- Result of dispatching one request. -/
structure DResult where
  status : Nat
  body : String
  events : List Event
deriving DecidableEq

/-- `res.setHeader('Content-Type', 'text/plain; charset=utf-8')`. -/
def contentTypeEvent : Event :=
  .setHeader "Content-Type" "text/plain; charset=utf-8"

/-- The HSTS header set for hostnames with a known certificate
(source line 662). -/
def hstsEvent : Event :=
  .setHeader "Strict-Transport-Security" "max-age=31536000; includeSubDomains; preload"

/-- The CSP header set for hostnames with a known certificate
(source line 663). -/
def cspEvent : Event :=
  .setHeader "Content-Security-Policy" "upgrade-insecure-requests"

/-- `runNextApp` (source lines 668–696): walk the ordered handler list;
a deferring handler advances the walk, a continuation error yields `500`,
a thrown exception is caught, logged and the walk continues, and an
exhausted list yields `404 Not found`. -/
def runNextApp (hostname : String) : List Mapping → DResult
  | [] =>
    ⟨404, "Not found", [contentTypeEvent, .respondE 404 "Not found"]⟩
  | m :: rest =>
    match m.app with
    | .respond s b =>
      ⟨s, b, [.invoke m.source, .respondE s b]⟩
    | .defer =>
      let r := runNextApp hostname rest
      ⟨r.status, r.body, .invoke m.source :: r.events⟩
    | .deferErr =>
      ⟨500, "Internal server error.",
        [.invoke m.source, .logErr hostname m.source, contentTypeEvent,
         .respondE 500 "Internal server error."]⟩
    | .throwE =>
      let r := runNextApp hostname rest
      ⟨r.status, r.body, .invoke m.source :: .logErr hostname m.source :: r.events⟩

/-- `hostHeader.split(':')[0].toLowerCase()` (source line 659). -/
def extractHostname (hostHeader : String) : String :=
  ⟨lowerL (firstTok ':' hostHeader.data)⟩

/-- `httpsRequestHandler` (source lines 657–698): extract the hostname
from the `Host` header (empty string when absent), inject security
headers for certificate-backed hostnames, answer `502` when no mapping
exists, and otherwise run the fallthrough chain. -/
def httpsRequestHandler (domainToApp : DMap) (certDomainSet : List String)
    (hostHeader : Option String) : DResult :=
  let hostname := extractHostname (hostHeader.getD "")
  let mappings := mapGetD domainToApp hostname
  let secEvents :=
    if certDomainSet.contains hostname then [hstsEvent, cspEvent] else []
  if mappings = [] then
    ⟨502, "No application configured for this domain.",
      secEvents ++ [contentTypeEvent,
        .respondE 502 "No application configured for this domain."]⟩
  else
    let r := runNextApp hostname mappings
    ⟨r.status, r.body, secEvents ++ r.events⟩

/-- The handler invocations of a dispatch, in order. -/
def invocations (r : DResult) : List String :=
  r.events.filterMap (fun e => match e with | .invoke s => some s | _ => none)

/-! ## Static/proxy descriptor parsing
(`parseStaticsAndProxiesDomains`, source lines 290–327) -/

/-- `line = line.split(' ')[0]` (source line 297). -/
def lineTok (rawLine : List Char) : List Char :=
  firstTok ' ' rawLine

/-- `const trimmed = line.trim()` (source line 298). -/
def lineTrimmed (rawLine : List Char) : List Char :=
  jsTrim (lineTok rawLine)

/-- The pass-through test of source line 300:
`!trimmed || trimmed.startsWith('#') || trimmed.startsWith('//')`. -/
def lineIsCommentOrEmpty (rawLine : List Char) : Bool :=
  decide (lineTrimmed rawLine = [])
    || "#".data.isPrefixOf (lineTrimmed rawLine)
    || "//".data.isPrefixOf (lineTrimmed rawLine)

/-- Processing of one raw line (source lines 296–308):
`line=line.split(' ')[0]`, trim, pass empty/comment lines through
unchanged, otherwise sanitize the token and collect it when nonempty.
Returns the pushed line, the collected domain (if any), and whether this
line raised the `changed` flag. -/
def processLine (rawLine : List Char) : List Char × Option (List Char) × Bool :=
  if lineIsCommentOrEmpty rawLine then
    (lineTok rawLine, none, decide (¬ (lineTrimmed rawLine = lineTok rawLine)))
  else
    (sanitizeDomainL (lineTrimmed rawLine),
     if sanitizeDomainL (lineTrimmed rawLine) = [] then none
     else some (sanitizeDomainL (lineTrimmed rawLine)),
     decide (¬ (lineTrimmed rawLine = lineTok rawLine))
       || decide (¬ (sanitizeDomainL (lineTrimmed rawLine) = lineTrimmed rawLine)))

/-- The `rawLines.forEach` loop (source lines 296–308): rewritten lines,
collected domains, and the accumulated `changed` flag. -/
def scanLines : List (List Char) → List (List Char) × List (List Char) × Bool
  | [] => ([], [], false)
  | l :: ls =>
    let r := processLine l
    let rs := scanLines ls
    (r.1 :: rs.1,
     (match r.2.1 with | some d => d :: rs.2.1 | none => rs.2.1),
     r.2.2 || rs.2.2)

/-- `filename.replace(/suffix$/i,'')` for a literal suffix. -/
def stripSuffixCI (suffix : List Char) (l : List Char) : List Char :=
  if (lowerL suffix).isSuffixOf (lowerL l) then l.take (l.length - suffix.length) else l

/-- The filename fallback (source lines 324–326): strip `.hts.txt` then
`.txt`, case-insensitively. -/
def fallbackBase (filename : String) : List Char :=
  stripSuffixCI ".txt".data (stripSuffixCI ".hts.txt".data filename.data)

/-- Outcome of `parseStaticsAndProxiesDomains`: the returned domain list,
the file content after the possible in-place rewrite, and whether the
rewrite fired. -/
structure SPResult where
  domains : List String
  content : String
  rewritten : Bool
deriving DecidableEq

/-- `parseStaticsAndProxiesDomains` (source lines 290–327), as a pure
function from the file's current content (and the display filename used
for the fallback) to domains, post-call content and rewrite flag. -/
def parseStaticsAndProxiesDomains (contents filename : String) : SPResult :=
  let raw := splitLinesL contents.data
  let scanned := scanLines raw
  let updated := joinLinesL scanned.1
  let didRewrite := scanned.2.2 && decide (¬ (updated = contents.data))
  let newContent : List Char := if didRewrite then updated else contents.data
  let domains : List String :=
    if scanned.2.1 = [] then
      (if fallbackBase filename = [] then [] else [⟨fallbackBase filename⟩])
    else scanned.2.1.map (fun l => (⟨l⟩ : String))
  ⟨domains, ⟨newContent⟩, didRewrite⟩

/-- A sanitize-stable domain token: space-free, trimmed, not
comment-prefixed, a fixed point of `sanitizeDomain`, and nonempty — the
shape a bare hostname written on a descriptor line has. -/
def stableDomainToken (d : List Char) : Bool :=
  decide (firstTok ' ' d = d) && decide (jsTrim d = d)
  && !("#".data.isPrefixOf d) && !("//".data.isPrefixOf d)
  && decide (sanitizeDomainL d = d) && decide (¬ (d = []))

/-! ## Proxy descriptor loading (`loadDescriptorsOfKind`, source lines
334–342, and `createProxyApp`, source lines 360–364) -/

/-- A file handed to `loadDescriptorsOfKind` by discovery. -/
structure FsFile where
  absolutePath : String
  displayName : String
  content : String
deriving DecidableEq

/-- The proxy-target computation of `loadDescriptorsOfKind` (source line
338): `absolutePath.split('.')`, then `parts[parts.length - 3].trim()`.
When the path has fewer than three dot-separated segments the JavaScript
index is negative, the element is `undefined` and `.trim()` throws; that
failure is `none`. -/
def jsTargetOfPath (absolutePath : String) : Option String :=
  let parts := splitOnCharL '.' absolutePath.data
  if parts.length < 3 then none
  else (parts.get? (parts.length - 3)).map (fun t => (⟨jsTrim t⟩ : String))

/-- A descriptor produced by `loadDescriptorsOfKind` (source line 339). -/
structure DescriptorR where
  type : String
  filename : String
  absolutePath : String
  domains : List String
  target : Option String
deriving DecidableEq

/-- The per-file body of `loadDescriptorsOfKind` (source lines 336–340)
for the `static` and `proxy` kinds (the `express` kind loads a module
instead of parsing the file).  `none` models the thrown `TypeError` when
the proxy target index is out of range. -/
def loadDescriptorOfKind (kind : String) (f : FsFile) : Option DescriptorR :=
  let domains := (parseStaticsAndProxiesDomains f.content f.displayName).domains
  if kind = "proxy" then
    match jsTargetOfPath f.absolutePath with
    | none => none
    | some t => some ⟨kind, f.displayName, f.absolutePath, domains, some t⟩
  else
    some ⟨kind, f.displayName, f.absolutePath, domains, none⟩

/-- The upstream URL `createProxyApp` points its middleware at
(source line 362): `'http://localhost:'+target`. -/
def createProxyAppTargetUrl (target : String) : String :=
  "http://localhost:" ++ target

/-- Whether `pat` occurs as a contiguous substring. -/
def containsSub (pat : List Char) : List Char → Bool
  | [] => pat.isPrefixOf []
  | c :: rest => pat.isPrefixOf (c :: rest) || containsSub pat rest

/-- Whitespace-separated tokens of a line (split on whitespace runs). -/
def wsTokens (l : List Char) : List (List Char) :=
  (splitOnCharL ' ' (l.map (fun c => if isJsWhitespace c then ' ' else c))).filter
    (fun t => ¬ (t = []))

/-- Modelled from the spec: the proxy-target resolution §4.2 describes
for proxy descriptors — the second whitespace-separated token of the
first usable (non-empty, non-comment) line, normalized to a full local
URL (bare digits become `http://localhost:<port>`, an unschemed
`host:port` gains `http://`, a schemed token is untouched); when no
explicit target exists, a port derived from the filename's trailing
dot-separated numeric segment, defaulting to `80`.  The active source
does not implement this; the definition exists only to compare the
spec's words against the code. -/
def specResolveProxyTarget (displayName content : String) : String :=
  let usable := (splitLinesL content.data).filter (fun l =>
    let t := jsTrim l
    ¬ (t = [] ∨ "#".data.isPrefixOf t ∨ "//".data.isPrefixOf t))
  let explicit : Option (List Char) :=
    match usable with
    | [] => none
    | l :: _ => (wsTokens (jsTrim l)).get? 1
  match explicit with
  | some t =>
    if t ≠ [] ∧ t.all Char.isDigit then "http://localhost:" ++ (⟨t⟩ : String)
    else if containsSub "://".data t then (⟨t⟩ : String)
    else "http://" ++ (⟨t⟩ : String)
  | none =>
    let base := stripSuffixCI ".proxy.hts".data displayName.data
    let parts := splitOnCharL '.' base
    let port : List Char :=
      match parts.getLast? with
      | some last =>
        if 1 < parts.length ∧ last ≠ [] ∧ last.all Char.isDigit then last else "80".data
      | none => "80".data
    "http://localhost:" ++ (⟨port⟩ : String)

/-! ## Configuration file (`writeConfigFile`, source lines 469–495, and
`parseConfigFile`, source lines 497–537) -/

/-- A descriptor handed to `writeConfigFile`. -/
structure CfgDescriptor where
  filename : String
  absolutePath : String
  domains : List String
  target : Option String
deriving DecidableEq

/-- `path.isAbsolute` (POSIX). -/
def isAbsolutePath (p : String) : Bool :=
  "/".data.isPrefixOf p.data

/-- `path.dirname` (POSIX): strip trailing slashes, then the basename. -/
def dirnameOf (p : String) : String :=
  let l := (p.data.reverse.dropWhile (fun c => c = '/')).reverse
  if l.all (fun c => ¬ (c = '/')) then "."
  else
    let d := ((l.reverse.dropWhile (fun c => ¬ (c = '/'))).drop 1).reverse
    if d = [] then "/" else ⟨d⟩

/-- `path.basename` (POSIX): the final path segment. -/
def basenameOf (p : String) : String :=
  ⟨(p.data.reverse.takeWhile (fun c => ¬ (c = '/'))).reverse⟩

/-- `path.join(a, b)` for the simple shapes this program produces. -/
def pathJoin (a b : String) : String :=
  if a = "" then b
  else if b = "" then a
  else ⟨a.data ++ (if a.data.getLast? = some '/' then [] else ['/']) ++ b.data⟩

/-- The configuration-file lines `pushEntry` emits for one descriptor
(source lines 471–487). -/
def pushEntryLines (certEntries : List CertEntry) (dirname : String)
    (type : String) (d : CfgDescriptor) : List (List Char) :=
  let id := if ¬ (d.absolutePath = "") then d.absolutePath else pathJoin dirname d.filename
  [id.data, ("  type: " ++ type).data, ("  dir: " ++ dirnameOf id).data]
  ++ (match d.target with
      | some t => if type = "proxy" ∧ ¬ (t = "") then [("  target: " ++ t).data] else []
      | none => [])
  ++ ["  domains:".data]
  ++ (if d.domains = [] then ["    - (none) (cert: n/a)".data]
      else d.domains.map (fun dom =>
        ("    - " ++ dom ++ " (cert: "
          ++ (if hasCertificateForDomain dom certEntries then "present" else "missing")
          ++ ")").data))
  ++ [[]]

/-- `writeConfigFile` (source lines 469–495): proxy blocks first, then
static, then express, joined with newlines. -/
def writeConfigFile (serverDescriptors staticDescriptors proxyDescriptors :
    List CfgDescriptor) (certEntries : List CertEntry) (dirname : String) : String :=
  ⟨joinLinesL
    ((proxyDescriptors.map (pushEntryLines certEntries dirname "proxy")).flatten
     ++ (staticDescriptors.map (pushEntryLines certEntries dirname "static")).flatten
     ++ (serverDescriptors.map (pushEntryLines certEntries dirname "express")).flatten)⟩

/-- An in-progress entry of `parseConfigFile` (source lines 501–516). -/
structure PEntry where
  id : String
  type : Option String
  dir : Option String
  target : Option String
  domains : List String
deriving DecidableEq

/-- The `flush` closure (source line 502): keep the entry only when both
`curr.type` and `curr.id` are truthy. -/
def flushEntry (curr : Option PEntry) (acc : List PEntry) : List PEntry :=
  match curr with
  | some c => if ¬ (c.type.getD "" = "") ∧ ¬ (c.id = "") then acc ++ [c] else acc
  | none => acc

/-- `trimmed.split(':').slice(1).join(':').trim()`: everything after the
first colon, trimmed. -/
def afterColonTrim (l : List Char) : List Char :=
  jsTrim ((l.dropWhile (fun c => ¬ (c = ':'))).drop 1)

/-- Index of the leftmost case-insensitive occurrence of `(cert:`. -/
def findCertIdx : List Char → Option Nat
  | [] => none
  | c :: rest =>
    if "(cert:".data.isPrefixOf (lowerL (c :: rest)) then some 0
    else (findCertIdx rest).map (· + 1)

/-- `domainPart.replace(/\(cert:.*\)$/i, '')` (source line 512): when the
line ends with `)` and contains `(cert:`, everything from the leftmost
`(cert:` on is removed. -/
def stripCertNote (l : List Char) : List Char :=
  match findCertIdx l with
  | some i => if l.getLast? = some ')' then l.take i else l
  | none => l

/-- One step of the `lines.forEach` of `parseConfigFile` (source lines
503–516), with `none` modelling the `TypeError` thrown when an indented
line precedes any entry head. -/
def parseCfgLines : List (List Char) → Option PEntry → List PEntry → Option (List PEntry)
  | [], curr, acc => some (flushEntry curr acc)
  | line :: rest, curr, acc =>
    if jsTrim line = [] then parseCfgLines rest none (flushEntry curr acc)
    else if ¬ (" ".data.isPrefixOf line) then
      parseCfgLines rest (some ⟨⟨jsTrim line⟩, none, none, none, []⟩) (flushEntry curr acc)
    else
      match curr with
      | none => none
      | some c =>
        let trimmed := jsTrim line
        if "type:".data.isPrefixOf trimmed then
          parseCfgLines rest (some { c with type := some ⟨afterColonTrim trimmed⟩ }) acc
        else if "target:".data.isPrefixOf trimmed then
          parseCfgLines rest (some { c with target := some ⟨afterColonTrim trimmed⟩ }) acc
        else if "dir:".data.isPrefixOf trimmed then
          parseCfgLines rest (some { c with dir := some ⟨afterColonTrim trimmed⟩ }) acc
        else if "-".data.isPrefixOf trimmed then
          let domainPart := jsTrim (trimmed.drop 1)
          let withoutCert := jsTrim (stripCertNote domainPart)
          if ¬ (withoutCert = []) ∧ ¬ (withoutCert = "(none)".data) then
            parseCfgLines rest (some { c with domains := c.domains ++ [⟨withoutCert⟩] }) acc
          else parseCfgLines rest (some c) acc
        else parseCfgLines rest (some c) acc

/-- One reconstructed descriptor of `parseConfigFile` (source lines
519–532). -/
structure ParsedCfgEntry where
  absolutePath : String
  displayName : String
  domains : List String
  target : Option String
deriving DecidableEq

/-- `mapEntries(type)` (source lines 519–532). -/
def mapEntries (entries : List PEntry) (type : String) (dirname : String) :
    List ParsedCfgEntry :=
  (entries.filter (fun e => e.type = some type ∧ ¬ (e.id = ""))).map (fun e =>
    let absolutePath :=
      if isAbsolutePath e.id then e.id
      else match e.dir with
        | some dir => if ¬ (dir = "") then pathJoin dir e.id else pathJoin dirname e.id
        | none => pathJoin dirname e.id
    ⟨absolutePath, basenameOf absolutePath, e.domains, e.target⟩)

/-- The `{servers, statics, proxies}` result of `parseConfigFile`. -/
structure ConfigSets where
  servers : List ParsedCfgEntry
  statics : List ParsedCfgEntry
  proxies : List ParsedCfgEntry
deriving DecidableEq

/-- `parseConfigFile` (source lines 497–537) on a given file content. -/
def parseConfigFile (content : String) (dirname : String) : Option ConfigSets :=
  (parseCfgLines (splitLinesL content.data) none []).map (fun entries =>
    ⟨mapEntries entries "express" dirname, mapEntries entries "static" dirname,
     mapEntries entries "proxy" dirname⟩)

/-- The descriptor `main` rebuilds from one parsed configuration entry
(source lines 706–714). -/
def toCfgDescriptor (e : ParsedCfgEntry) : CfgDescriptor :=
  ⟨e.displayName, e.absolutePath, e.domains, e.target⟩

/-! ## Well-formedness of configuration tokens -/

/-- The list is nonempty and starts with a non-whitespace character. -/
def notWsHead : List Char → Bool
  | [] => false
  | c :: _ => !(isJsWhitespace c)

/-- Trailing-whitespace removal (the back half of `trim`). -/
def backTrim (l : List Char) : List Char :=
  (l.reverse.dropWhile isJsWhitespace).reverse

/-- A plain token: nonempty, no whitespace at either end, and free of
line breaks. -/
def plainTokenL (t : List Char) : Bool :=
  notWsHead t && notWsHead t.reverse && decide ('\n' ∉ t) && decide ('\r' ∉ t)

/-- A domain a configuration round-trip can carry verbatim: a plain token
containing no `(` (so it cannot collide with the `(cert: …)` annotation
or the `(none)` placeholder). -/
def goodCfgDomain (s : String) : Bool :=
  plainTokenL s.data && decide ('(' ∉ lowerL s.data)

/-- An absolute, line-break-free, untrimmable path. -/
def goodCfgPath (p : String) : Bool :=
  "/".data.isPrefixOf p.data && plainTokenL p.data

/-- A proxy target the configuration file can carry verbatim: absent, or
a plain token. -/
def goodCfgTarget : Option String → Bool
  | none => true
  | some t => plainTokenL t.data

/-- The `PEntry` the parser accumulates for one written block. -/
def blockEntry (dirname : String) (type : String) (d : CfgDescriptor) : PEntry :=
  ⟨d.absolutePath, some type,
   some ⟨afterColonTrim (jsTrim ("  dir: " ++ dirnameOf
     (if ¬ (d.absolutePath = "") then d.absolutePath
      else pathJoin dirname d.filename)).data)⟩,
   (match d.target with
    | some t => if type = "proxy" ∧ ¬ (t = "") then some t else none
    | none => none),
   d.domains⟩


/-! ## Helper lemmas -/

theorem mem_stripLeadCR (acc : List Char) (x : Char)
    (hx : x ∈ (match acc with | '\r' :: t => t.reverse | _ => acc.reverse)) : x ∈ acc := by
  split at hx
  · exact List.mem_cons_of_mem _ (List.mem_reverse.1 hx)
  · exact List.mem_reverse.1 hx

theorem splitLinesAux_ne_nil (l acc : List Char) : splitLinesAux l acc ≠ [] := by
  induction l generalizing acc with
  | nil => simp [splitLinesAux]
  | cons c rest ih =>
    simp only [splitLinesAux]
    by_cases hc : c = '\n'
    · rw [if_pos hc]; simp
    · rw [if_neg hc]; exact ih _

theorem scanLines_fst_eq_nil_iff (ls : List (List Char)) :
    (scanLines ls).1 = [] ↔ ls = [] := by
  cases ls <;> simp [scanLines]

theorem mem_splitLinesAux_not_mem (x : Char) (l acc : List Char)
    (hl : x ∉ l) (hacc : x ∉ acc) :
    ∀ line ∈ splitLinesAux l acc, x ∉ line := by
  induction l generalizing acc with
  | nil =>
    intro line hline
    simp only [splitLinesAux, List.mem_singleton] at hline
    subst hline
    simpa using hacc
  | cons c rest ih =>
    intro line hline
    simp only [splitLinesAux] at hline
    have hrest : x ∉ rest := fun hr => hl (List.mem_cons_of_mem c hr)
    by_cases hc : c = '\n'
    · rw [if_pos hc] at hline
      rcases List.mem_cons.1 hline with h | h
      · subst h
        exact fun hx => hacc (mem_stripLeadCR acc x hx)
      · exact ih [] hrest (by simp) line h
    · rw [if_neg hc] at hline
      refine ih (c :: acc) hrest ?_ line hline
      intro hx
      rcases List.mem_cons.1 hx with h | h
      · exact hl (h ▸ List.mem_cons_self c rest)
      · exact hacc h

theorem no_newline_splitLinesAux (l acc : List Char) (hacc : '\n' ∉ acc) :
    ∀ line ∈ splitLinesAux l acc, '\n' ∉ line := by
  induction l generalizing acc with
  | nil =>
    intro line hline
    simp only [splitLinesAux, List.mem_singleton] at hline
    subst hline
    simpa using hacc
  | cons c rest ih =>
    intro line hline
    simp only [splitLinesAux] at hline
    by_cases hc : c = '\n'
    · rw [if_pos hc] at hline
      rcases List.mem_cons.1 hline with h | h
      · subst h
        exact fun hx => hacc (mem_stripLeadCR acc _ hx)
      · exact ih [] (by simp) line h
    · rw [if_neg hc] at hline
      refine ih (c :: acc) ?_ line hline
      intro hx
      rcases List.mem_cons.1 hx with h | h
      · exact hc h.symm
      · exact hacc h

theorem splitLinesAux_no_newline (l acc : List Char) (hl : '\n' ∉ l) :
    splitLinesAux l acc = [acc.reverse ++ l] := by
  induction l generalizing acc with
  | nil => simp [splitLinesAux]
  | cons c rest ih =>
    have hc : ¬ (c = '\n') := fun he => hl (he ▸ List.mem_cons_self c rest)
    simp only [splitLinesAux, if_neg hc]
    rw [ih (c :: acc) (fun hr => hl (List.mem_cons_of_mem c hr))]
    simp

theorem splitLinesAux_append (l r acc : List Char) (hl : '\n' ∉ l) :
    splitLinesAux (l ++ r) acc = splitLinesAux r (l.reverse ++ acc) := by
  induction l generalizing acc with
  | nil => simp
  | cons c rest ih =>
    have hc : ¬ (c = '\n') := fun he => hl (he ▸ List.mem_cons_self c rest)
    simp only [List.cons_append, splitLinesAux, if_neg hc, List.append_eq]
    rw [ih (c :: acc) (fun hr => hl (List.mem_cons_of_mem c hr))]
    simp

theorem stripLeadCR_of_no_cr (l : List Char) (hl : '\r' ∉ l) :
    (match l.reverse with | '\r' :: t => t.reverse | _ => l.reverse.reverse) = l := by
  split
  · next t heq =>
    exfalso
    apply hl
    have : '\r' ∈ l.reverse := heq ▸ List.mem_cons_self '\r' t
    exact List.mem_reverse.1 this
  · simp

theorem splitLines_joinLines (ls : List (List Char)) (hne : ls ≠ [])
    (h : ∀ l ∈ ls, '\n' ∉ l ∧ '\r' ∉ l) :
    splitLinesL (joinLinesL ls) = ls := by
  induction ls with
  | nil => exact absurd rfl hne
  | cons l ls ih =>
    match ls with
    | [] =>
      simp only [joinLinesL, splitLinesL]
      rw [splitLinesAux_no_newline _ _ (h l (by simp)).1]
      simp
    | l' :: ls' =>
      simp only [joinLinesL, splitLinesL]
      rw [splitLinesAux_append _ _ _ (h l (by simp)).1]
      rw [List.append_nil]
      have hhead := stripLeadCR_of_no_cr l (h l (by simp)).2
      have htail : splitLinesAux (joinLinesL (l' :: ls')) [] = l' :: ls' :=
        ih (by simp) (fun x hx => h x (List.mem_cons_of_mem l hx))
      have hstep : splitLinesAux ('\n' :: joinLinesL (l' :: ls')) l.reverse
          = (match l.reverse with
             | '\r' :: t => t.reverse
             | _ => l.reverse.reverse) :: splitLinesAux (joinLinesL (l' :: ls')) [] := by
        simp [splitLinesAux]
      rw [hstep, htail, hhead]

theorem mem_firstTok (sep : Char) (l : List Char) (c : Char)
    (h : c ∈ firstTok sep l) : c ∈ l :=
  (List.takeWhile_sublist _).mem h

theorem firstTok_no_sep (sep : Char) (l : List Char) : sep ∉ firstTok sep l := by
  intro h
  have := List.mem_takeWhile_imp h
  simp at this

theorem firstTok_of_no_sep (sep : Char) (l : List Char) (h : sep ∉ l) :
    firstTok sep l = l := by
  apply List.takeWhile_eq_self_iff.mpr
  intro a ha
  simp only [decide_eq_true_iff]
  exact fun he => h (he ▸ ha)

theorem mem_jsTrim (l : List Char) (c : Char) (h : c ∈ jsTrim l) : c ∈ l := by
  unfold jsTrim at h
  rw [List.mem_reverse] at h
  have h1 := (List.dropWhile_sublist _).mem h
  rw [List.mem_reverse] at h1
  exact (List.dropWhile_sublist _).mem h1

theorem mem_sanitizeDomainL (l : List Char) (c : Char)
    (h : c ∈ sanitizeDomainL l) : c ∈ l := by
  unfold sanitizeDomainL stripTrailingSlashes at h
  rw [List.mem_reverse] at h
  have h1 := (List.dropWhile_sublist _).mem h
  rw [List.mem_reverse] at h1
  unfold stripSchemePrefix at h1
  apply mem_jsTrim
  split at h1
  · exact List.mem_of_mem_drop h1
  · split at h1
    · exact List.mem_of_mem_drop h1
    · exact h1

theorem mem_lineTrimmed (l : List Char) (c : Char) (h : c ∈ lineTrimmed l) : c ∈ l :=
  mem_firstTok ' ' l c (mem_jsTrim _ c h)

theorem mem_processLine_fst (l : List Char) (c : Char)
    (h : c ∈ (processLine l).1) : c ∈ l := by
  unfold processLine at h
  split at h
  · exact mem_firstTok ' ' l c h
  · exact mem_lineTrimmed l c (mem_sanitizeDomainL _ c h)

theorem processLine_fst_no_space (l : List Char) : ' ' ∉ (processLine l).1 := by
  intro h
  unfold processLine at h
  split at h
  · exact firstTok_no_sep ' ' l h
  · exact firstTok_no_sep ' ' l (mem_jsTrim _ ' ' (mem_sanitizeDomainL _ ' ' h))

theorem processLine_collected_eq_fst (l d : List Char)
    (h : (processLine l).2.1 = some d) : (processLine l).1 = d := by
  unfold processLine at h ⊢
  split at h
  · simp at h
  · split
    · simp_all
    · simp only at h
      split at h
      · simp at h
      · simpa using h

theorem lineTok_processLine_fst (l : List Char) :
    lineTok ((processLine l).1) = (processLine l).1 :=
  firstTok_of_no_sep ' ' _ (processLine_fst_no_space l)

theorem processLine_none_stable (l : List Char)
    (h : (processLine l).2.1 = none) :
    (processLine ((processLine l).1)).1 = (processLine l).1 ∧
    (processLine ((processLine l).1)).2.1 = none := by
  by_cases hcond : lineIsCommentOrEmpty l = true
  · have hp : (processLine l).1 = lineTok l := by
      unfold processLine
      rw [if_pos hcond]
    rw [hp]
    have htrim : lineTrimmed (lineTok l) = lineTrimmed l := by
      unfold lineTrimmed
      rw [show lineTok (lineTok l) = lineTok l from
        firstTok_of_no_sep ' ' _ (firstTok_no_sep ' ' l)]
    have hcond2 : lineIsCommentOrEmpty (lineTok l) = true := by
      unfold lineIsCommentOrEmpty at hcond ⊢
      rw [htrim]
      exact hcond
    unfold processLine
    rw [if_pos hcond2]
    exact ⟨firstTok_of_no_sep ' ' _ (firstTok_no_sep ' ' l), rfl⟩
  · have hsan : sanitizeDomainL (lineTrimmed l) = [] := by
      by_contra hne
      unfold processLine at h
      rw [if_neg hcond] at h
      simp only at h
      rw [if_neg hne] at h
      simp at h
    have hp : (processLine l).1 = [] := by
      unfold processLine
      rw [if_neg hcond]
      exact hsan
    rw [hp]
    constructor <;> unfold processLine <;>
      rw [if_pos (by unfold lineIsCommentOrEmpty lineTrimmed lineTok firstTok jsTrim; simp)]
    rfl

theorem processLine_stable_token (d : List Char) (hs : stableDomainToken d = true) :
    (processLine d).1 = d ∧ (processLine d).2.1 = some d := by
  simp only [stableDomainToken, Bool.and_eq_true, decide_eq_true_iff,
    Bool.not_eq_true'] at hs
  obtain ⟨⟨⟨⟨⟨hft, htrim⟩, hhash⟩, hslash⟩, hsan⟩, hne⟩ := hs
  have htr : lineTrimmed d = d := by
    unfold lineTrimmed lineTok
    rw [hft, htrim]
  have hcond : ¬ (lineIsCommentOrEmpty d = true) := by
    unfold lineIsCommentOrEmpty
    rw [htr]
    simp [hne, hhash, hslash]
  unfold processLine
  rw [if_neg hcond, htr, hsan]
  rw [if_neg hne]
  exact ⟨rfl, rfl⟩

theorem scanLines_cons (l : List Char) (ls : List (List Char)) :
    scanLines (l :: ls) =
      ((processLine l).1 :: (scanLines ls).1,
       (match (processLine l).2.1 with
        | some d => d :: (scanLines ls).2.1
        | none => (scanLines ls).2.1),
       (processLine l).2.2 || (scanLines ls).2.2) := rfl

theorem mem_scanLines_fst (ls : List (List Char)) (p : List Char)
    (hp : p ∈ (scanLines ls).1) : ∃ l ∈ ls, p = (processLine l).1 := by
  induction ls with
  | nil => simp [scanLines] at hp
  | cons l ls ih =>
    rw [scanLines_cons] at hp
    rcases List.mem_cons.1 hp with h | h
    · exact ⟨l, by simp, h⟩
    · obtain ⟨l', hl', he⟩ := ih h
      exact ⟨l', List.mem_cons_of_mem l hl', he⟩

theorem scanLines_stable (ls : List (List Char))
    (hstable : ∀ d ∈ (scanLines ls).2.1, stableDomainToken d = true) :
    (scanLines ((scanLines ls).1)).1 = (scanLines ls).1 ∧
    (scanLines ((scanLines ls).1)).2.1 = (scanLines ls).2.1 := by
  induction ls with
  | nil => exact ⟨rfl, rfl⟩
  | cons l ls ih =>
    cases hc : (processLine l).2.1 with
    | none =>
      have h8 := processLine_none_stable l hc
      have hrest : ∀ d ∈ (scanLines ls).2.1, stableDomainToken d = true := by
        intro d hd
        apply hstable
        rw [scanLines_cons, hc]
        exact hd
      have hih := ih hrest
      rw [scanLines_cons, hc]
      rw [scanLines_cons, h8.2]
      constructor
      · rw [h8.1, hih.1]
      · exact hih.2
    | some d =>
      have hp := processLine_collected_eq_fst l d hc
      have hsd : stableDomainToken d = true := by
        apply hstable
        rw [scanLines_cons, hc]
        exact List.mem_cons_self d _
      have h9 := processLine_stable_token d hsd
      have hrest : ∀ x ∈ (scanLines ls).2.1, stableDomainToken x = true := by
        intro x hx
        apply hstable
        rw [scanLines_cons, hc]
        exact List.mem_cons_of_mem d hx
      have hih := ih hrest
      rw [scanLines_cons, hc]
      rw [scanLines_cons, hp, h9.2]
      constructor
      · rw [h9.1, hih.1]
      · rw [hih.2]

theorem claim8_amended (contents filename : String)
    (hcr : '\r' ∉ contents.data)
    (hstable : ∀ d ∈ (scanLines (splitLinesL contents.data)).2.1,
      stableDomainToken d = true) :
    (parseStaticsAndProxiesDomains
        (parseStaticsAndProxiesDomains contents filename).content filename).domains
      = (parseStaticsAndProxiesDomains contents filename).domains
    ∧ (parseStaticsAndProxiesDomains
        (parseStaticsAndProxiesDomains contents filename).content filename).rewritten
      = false := by
  obtain ⟨cl⟩ := contents
  simp only [String.data] at hcr hstable
  by_cases hdr : ((scanLines (splitLinesL cl)).2.2
      && decide (¬ (joinLinesL (scanLines (splitLinesL cl)).1 = cl))) = true
  · -- the first parse rewrote the file
    have hcontent : (parseStaticsAndProxiesDomains ⟨cl⟩ filename).content
        = ⟨joinLinesL (scanLines (splitLinesL cl)).1⟩ := by
      simp only [parseStaticsAndProxiesDomains]
      rw [if_pos hdr]
    have hlines : ∀ p ∈ (scanLines (splitLinesL cl)).1, '\n' ∉ p ∧ '\r' ∉ p := by
      intro p hp
      obtain ⟨l, hl, he⟩ := mem_scanLines_fst _ p hp
      subst he
      constructor
      · intro hx
        exact no_newline_splitLinesAux cl [] (by simp) l hl (mem_processLine_fst l _ hx)
      · intro hx
        exact mem_splitLinesAux_not_mem '\r' cl [] hcr (by simp) l hl
          (mem_processLine_fst l _ hx)
    have hne : (scanLines (splitLinesL cl)).1 ≠ [] := by
      rw [Ne, scanLines_fst_eq_nil_iff]
      exact splitLinesAux_ne_nil cl []
    have hsplit : splitLinesL (joinLinesL (scanLines (splitLinesL cl)).1)
        = (scanLines (splitLinesL cl)).1 :=
      splitLines_joinLines _ hne hlines
    have hscan := scanLines_stable (splitLinesL cl) hstable
    rw [hcontent]
    constructor
    · simp only [parseStaticsAndProxiesDomains]
      rw [hsplit, hscan.2]
    · simp only [parseStaticsAndProxiesDomains]
      rw [hsplit, hscan.1]
      simp
  · -- no rewrite: the content is unchanged and the second parse is the first
    have hcontent : (parseStaticsAndProxiesDomains ⟨cl⟩ filename).content = ⟨cl⟩ := by
      simp only [parseStaticsAndProxiesDomains]
      rw [if_neg hdr]
    rw [hcontent]
    refine ⟨rfl, ?_⟩
    simp only [parseStaticsAndProxiesDomains]
    exact Bool.eq_false_iff.mpr hdr


/-! ## Claim theorems -/

theorem domainMatchesPattern_characterization :
    (∀ domain pattern : String,
      domainMatchesPattern domain pattern = true ↔
        (lowerL domain.data ≠ [] ∧ lowerL pattern.data ≠ [] ∧
          (lowerL domain.data = lowerL pattern.data ∨
            (['*', '.'].isPrefixOf (lowerL pattern.data) = true ∧
             ((lowerL pattern.data).drop 1).isSuffixOf (lowerL domain.data) = true ∧
             ((lowerL pattern.data).drop 1).length < (lowerL domain.data).length))))
    ∧ domainMatchesPattern "a.example.com" "*.example.com" = true
    ∧ domainMatchesPattern "example.com" "*.example.com" = false
    ∧ domainMatchesPattern "example.com" "example.com" = true := by
  refine ⟨?_, by decide, by decide, by decide⟩
  intro domain pattern
  simp only [domainMatchesPattern]
  by_cases h0 : lowerL domain.data = [] ∨ lowerL pattern.data = []
  · rw [if_pos h0]
    simp only [Bool.false_eq_true, false_iff, not_and]
    intro hd hp
    rcases h0 with h | h
    · exact absurd h hd
    · exact absurd h hp
  · rw [if_neg h0]
    push_neg at h0
    obtain ⟨hd, hp⟩ := h0
    by_cases hw : ['*', '.'].isPrefixOf (lowerL pattern.data) = true
    · rw [if_pos hw]
      obtain ⟨t, ht⟩ := (List.isPrefixOf_iff_prefix).1 hw
      constructor
      · intro h
        rw [Bool.and_eq_true, decide_eq_true_iff] at h
        exact ⟨hd, hp, Or.inr ⟨hw, h.1, h.2⟩⟩
      · rintro ⟨-, -, heq | ⟨-, hsuf, hlen⟩⟩
        · rw [Bool.and_eq_true, decide_eq_true_iff]
          constructor
          · rw [List.isSuffixOf_iff_suffix, heq, ← ht]
            exact ⟨['*'], rfl⟩
          · rw [heq, ← ht]
            simp
        · rw [Bool.and_eq_true, decide_eq_true_iff]
          exact ⟨hsuf, hlen⟩
    · rw [if_neg hw]
      simp only [decide_eq_true_iff]
      constructor
      · intro h
        exact ⟨hd, hp, Or.inl h⟩
      · rintro ⟨-, -, heq | ⟨hpre, -, -⟩⟩
        · exact heq
        · exact absurd hpre hw

theorem mapGetD_mapSet (m : DMap) (k : String) (v : List Mapping) (h : String) :
    mapGetD (mapSet m k v) h = if h = k then v else mapGetD m h := by
  induction m with
  | nil =>
    simp only [mapSet, mapGetD]
    by_cases hk : h = k
    · rw [if_pos hk, if_pos (hk.symm)]
    · rw [if_neg hk, if_neg (fun hh => hk hh.symm)]
  | cons p rest ih =>
    obtain ⟨k', w⟩ := p
    simp only [mapSet]
    by_cases hk' : k' = k
    · rw [if_pos hk']
      simp only [mapGetD]
      by_cases hk : h = k
      · rw [if_pos hk, if_pos hk.symm]
      · rw [if_neg hk, if_neg (fun hh => hk hh.symm), hk', if_neg (fun hh => hk hh.symm)]
    · rw [if_neg hk']
      simp only [mapGetD]
      by_cases hkh : k' = h
      · rw [if_pos hkh, if_neg (fun hh : h = k => hk' (hkh.trans hh)), if_pos hkh]
      · rw [if_neg hkh, if_neg hkh, ih]

theorem attachOne_get (k : String) (d : AppDescriptor) (m : DMap) (h : String) :
    mapGetD (attachOne k m d) h =
      mapGetD m h ++
        (if h = "" then []
         else (d.domains.filter (fun dom => normalizeDomain dom = h)).map
           (fun _ => (⟨d.app, d.filename, effectiveKind k d⟩ : Mapping))) := by
  unfold attachOne
  induction d.domains generalizing m with
  | nil =>
    by_cases hh : h = "" <;> simp [hh]
  | cons dom doms ih =>
    simp only [List.foldl_cons]
    rw [ih]
    by_cases hn : normalizeDomain dom = ""
    · simp only [hn, if_pos rfl]
      by_cases hh : h = ""
      · simp [hh]
      · have hne : ¬ (normalizeDomain dom = h) := fun he => hh ((hn.symm.trans he).symm)
        simp [hh, List.filter_cons, hne]
    · rw [if_neg hn]
      rw [mapGetD_mapSet]
      by_cases hdom : h = normalizeDomain dom
      · have hh : ¬ (h = "") := fun he => hn (hdom.symm.trans he)
        rw [if_pos hdom, if_neg hh, if_neg hh]
        simp [List.filter_cons, hdom.symm, List.append_assoc]
      · rw [if_neg hdom]
        by_cases hh : h = ""
        · simp [hh]
        · have hne : ¬ (normalizeDomain dom = h) := fun he => hdom he.symm
          simp [hh, List.filter_cons, hne]

theorem entriesFor_nil (k : String) (h : String) : entriesFor k [] h = [] := by
  by_cases hh : h = "" <;> simp [entriesFor, hh]

theorem entriesFor_cons (k : String) (d : AppDescriptor) (ds : List AppDescriptor)
    (h : String) :
    entriesFor k (d :: ds) h =
      (if h = "" then []
       else (d.domains.filter (fun dom => normalizeDomain dom = h)).map
         (fun _ => (⟨d.app, d.filename, effectiveKind k d⟩ : Mapping)))
      ++ entriesFor k ds h := by
  by_cases hh : h = "" <;> simp [entriesFor, hh]

theorem attachDescriptors_get (k : String) (ds : List AppDescriptor) (m : DMap)
    (h : String) :
    mapGetD (attachDescriptors k ds m) h = mapGetD m h ++ entriesFor k ds h := by
  induction ds generalizing m with
  | nil => simp [attachDescriptors, entriesFor_nil]
  | cons d ds ih =>
    simp only [attachDescriptors, List.foldl_cons] at ih ⊢
    rw [ih, attachOne_get, entriesFor_cons, List.append_assoc]


theorem invocations_runNextApp_single (h : String) (sm : Mapping) :
    invocations (runNextApp h [sm]) = [sm.source] := by
  cases ha : sm.app <;>
    simp [runNextApp, invocations, ha, contentTypeEvent, List.filterMap]

theorem claim1 (s st p : List AppDescriptor) (h : String) (cs : List String) :
    mapGetD (buildDomainAppMap s st p) h =
      entriesFor "proxy" p h ++ entriesFor "static" st h ++ entriesFor "express" s h
    ∧ (∀ pm sm : Mapping,
        entriesFor "proxy" p h = [pm] →
        entriesFor "static" st h = [sm] →
        entriesFor "express" s h = [] →
        pm.app = HAction.defer →
        extractHostname h = h →
        invocations (httpsRequestHandler (buildDomainAppMap s st p) cs (some h)) =
          [pm.source, sm.source]) := by
  have hmap : mapGetD (buildDomainAppMap s st p) h =
      entriesFor "proxy" p h ++ entriesFor "static" st h ++ entriesFor "express" s h := by
    unfold buildDomainAppMap
    rw [attachDescriptors_get, attachDescriptors_get, attachDescriptors_get]
    simp [mapGetD, List.append_assoc]
  refine ⟨hmap, ?_⟩
  intro pm sm hp hs he hdefer hnorm
  have hms : mapGetD (buildDomainAppMap s st p) h = [pm, sm] := by
    rw [hmap, hp, hs, he]
    rfl
  have hrun : invocations (runNextApp h [pm, sm]) = [pm.source, sm.source] := by
    obtain ⟨pa, psrc, pkind⟩ := pm
    cases hdefer
    have hsingle := invocations_runNextApp_single h sm
    simp only [runNextApp, invocations, List.filterMap_cons] at hsingle ⊢
    rw [hsingle]
  unfold httpsRequestHandler
  simp only [Option.getD_some, hnorm, hms]
  rw [if_neg (by simp : ¬ ([pm, sm] = ([] : List Mapping)))]
  by_cases hc : cs.contains h = true
  · rw [if_pos hc]
    simp only [invocations, List.filterMap_append] at hrun ⊢
    simp [hstsEvent, cspEvent, hrun]
  · rw [if_neg hc]
    simp only [invocations, List.filterMap_append] at hrun ⊢
    simpa using hrun


theorem claim2 (m : DMap) (cs : List String) (hostHeader : Option String)
    (hnone : mapGetD m (extractHostname (hostHeader.getD "")) = []) :
    (httpsRequestHandler m cs hostHeader).status = 502 ∧
    (httpsRequestHandler m cs hostHeader).body = "No application configured for this domain." ∧
    contentTypeEvent ∈ (httpsRequestHandler m cs hostHeader).events ∧
    invocations (httpsRequestHandler m cs hostHeader) = [] := by
  unfold httpsRequestHandler
  simp only [hnone, if_true]
  by_cases hc : cs.contains (extractHostname (hostHeader.getD "")) = true
  · rw [if_pos hc]
    exact ⟨trivial, trivial, by decide, rfl⟩
  · rw [if_neg hc]
    exact ⟨trivial, trivial, by decide, rfl⟩

theorem runNextApp_all_defer (h : String) (ms : List Mapping)
    (hall : ∀ x ∈ ms, x.app = HAction.defer) :
    (runNextApp h ms).status = 404 ∧ (runNextApp h ms).body = "Not found" := by
  induction ms with
  | nil => exact ⟨rfl, rfl⟩
  | cons m rest ih =>
    have hm : m.app = HAction.defer := hall m (by simp)
    obtain ⟨ma, msrc, mkind⟩ := m
    simp only at hm
    cases hm
    simp only [runNextApp]
    exact ih (fun x hx => hall x (by simp [hx]))

theorem claim3 (m : DMap) (cs : List String) (hostHeader : Option String)
    (ms : List Mapping)
    (hms : mapGetD m (extractHostname (hostHeader.getD "")) = ms) (hne : ms ≠ [])
    (hall : ∀ x ∈ ms, x.app = HAction.defer) :
    (httpsRequestHandler m cs hostHeader).status = 404 ∧
    (httpsRequestHandler m cs hostHeader).body = "Not found" := by
  unfold httpsRequestHandler
  simp only [hms]
  rw [if_neg hne]
  exact runNextApp_all_defer _ ms hall

theorem runNextApp_all_throw (h : String) (ms : List Mapping)
    (hall : ∀ x ∈ ms, x.app = HAction.throwE) :
    (runNextApp h ms).status = 404 := by
  induction ms with
  | nil => rfl
  | cons m rest ih =>
    have hm : m.app = HAction.throwE := hall m (by simp)
    obtain ⟨ma, msrc, mkind⟩ := m
    simp only at hm
    cases hm
    simp only [runNextApp]
    exact ih (fun x hx => hall x (by simp [hx]))

theorem claim4_amended (hostname : String) (mp : Mapping) (rest : List Mapping)
    (hthrow : mp.app = HAction.throwE) :
    (runNextApp hostname (mp :: rest)).status = (runNextApp hostname rest).status
    ∧ (runNextApp hostname (mp :: rest)).body = (runNextApp hostname rest).body
    ∧ (runNextApp hostname (mp :: rest)).events
        = Event.invoke mp.source :: Event.logErr hostname mp.source ::
            (runNextApp hostname rest).events
    ∧ ((∀ x ∈ mp :: rest, x.app = HAction.throwE) →
        (runNextApp hostname (mp :: rest)).status = 404) := by
  refine ⟨?_, ?_, ?_, fun hall => runNextApp_all_throw hostname _ hall⟩ <;>
  · obtain ⟨ma, msrc, mkind⟩ := mp
    simp only at hthrow
    cases hthrow
    simp [runNextApp]

theorem claim4_counterexample :
    (httpsRequestHandler [("example.com", [⟨HAction.throwE, "a.hts.js", "express"⟩])] []
      (some "example.com")).status = 404 ∧
    ¬ ((httpsRequestHandler [("example.com", [⟨HAction.throwE, "a.hts.js", "express"⟩])] []
      (some "example.com")).status = 500) := by decide

theorem runNextApp_no_security_header (h : String) (ms : List Mapping) :
    hstsEvent ∉ (runNextApp h ms).events ∧ cspEvent ∉ (runNextApp h ms).events := by
  induction ms with
  | nil => constructor <;> simp [runNextApp, hstsEvent, cspEvent, contentTypeEvent]
  | cons m rest ih =>
    obtain ⟨ma, msrc, mkind⟩ := m
    cases ma <;>
      simp_all [runNextApp, hstsEvent, cspEvent, contentTypeEvent]

theorem claim5 (entries : List CertEntry) (m : DMap) (hostHeader : Option String) :
    ((buildCertDomainSet entries).contains (extractHostname (hostHeader.getD "")) = true →
      ∃ tail, (httpsRequestHandler m (buildCertDomainSet entries) hostHeader).events
        = hstsEvent :: cspEvent :: tail)
    ∧ ((buildCertDomainSet entries).contains (extractHostname (hostHeader.getD "")) = false →
      hstsEvent ∉ (httpsRequestHandler m (buildCertDomainSet entries) hostHeader).events
      ∧ cspEvent ∉ (httpsRequestHandler m (buildCertDomainSet entries) hostHeader).events) := by
  simp only [httpsRequestHandler]
  constructor
  · intro hc
    rw [if_pos hc]
    by_cases hm : mapGetD m (extractHostname (hostHeader.getD "")) = []
    · rw [if_pos hm]
      exact ⟨_, rfl⟩
    · rw [if_neg hm]
      exact ⟨_, rfl⟩
  · intro hc
    have hc' : ¬ ((buildCertDomainSet entries).contains
        (extractHostname (hostHeader.getD "")) = true) := by rw [hc]; exact Bool.false_ne_true
    rw [if_neg hc']
    by_cases hm : mapGetD m (extractHostname (hostHeader.getD "")) = []
    · rw [if_pos hm]
      constructor <;> simp [hstsEvent, cspEvent, contentTypeEvent]
    · rw [if_neg hm]
      simpa using runNextApp_no_security_header (extractHostname (hostHeader.getD ""))
        (mapGetD m (extractHostname (hostHeader.getD "")))


theorem claim1_witness :
    invocations (httpsRequestHandler
      (buildDomainAppMap []
        [⟨["example.com"], HAction.respond 200 "ok", "s.static.hts", "static"⟩]
        [⟨["example.com"], HAction.defer, "p.proxy.hts", "proxy"⟩]) []
      (some "example.com")) = ["p.proxy.hts", "s.static.hts"] :=
  (claim1 [] [⟨["example.com"], HAction.respond 200 "ok", "s.static.hts", "static"⟩]
      [⟨["example.com"], HAction.defer, "p.proxy.hts", "proxy"⟩] "example.com" []).2
    ⟨HAction.defer, "p.proxy.hts", "proxy"⟩ ⟨HAction.respond 200 "ok", "s.static.hts", "static"⟩
    (by decide) (by decide) (by decide) rfl (by decide)

theorem claim2_witness :
    (httpsRequestHandler [] [] (some "unknown.example")).status = 502 ∧
    invocations (httpsRequestHandler [] [] (some "unknown.example")) = [] :=
  ⟨(claim2 [] [] (some "unknown.example") (by decide)).1,
   (claim2 [] [] (some "unknown.example") (by decide)).2.2.2⟩

theorem claim3_witness :
    (httpsRequestHandler [("site.example", [⟨HAction.defer, "site.static.hts", "static"⟩])] []
      (some "site.example")).status = 404 ∧
    (httpsRequestHandler [("site.example", [⟨HAction.defer, "site.static.hts", "static"⟩])] []
      (some "site.example")).body = "Not found" :=
  claim3 [("site.example", [⟨HAction.defer, "site.static.hts", "static"⟩])] []
    (some "site.example") [⟨HAction.defer, "site.static.hts", "static"⟩]
    (by decide) (by decide) (by decide)

theorem claim4_amended_witness :
    (runNextApp "example.com" [⟨HAction.throwE, "a.hts.js", "express"⟩]).status = 404 :=
  (claim4_amended "example.com" ⟨HAction.throwE, "a.hts.js", "express"⟩ [] rfl).2.2.2
    (by decide)

theorem claim5_witness :
    ∃ tail, (httpsRequestHandler []
        (buildCertDomainSet [⟨["Example.com"]⟩]) (some "EXAMPLE.com:443")).events
      = hstsEvent :: cspEvent :: tail :=
  (claim5 [⟨["Example.com"]⟩] [] (some "EXAMPLE.com:443")).1 (by decide)


theorem claim7_counterexample :
    loadDescriptorOfKind "proxy"
        ⟨"/srv/site.8080.proxy.hts", "site.8080.proxy.hts", "example.com 3000"⟩
      = some ⟨"proxy", "site.8080.proxy.hts", "/srv/site.8080.proxy.hts",
              ["example.com"], some "8080"⟩
    ∧ specResolveProxyTarget "site.8080.proxy.hts" "example.com 3000"
      = "http://localhost:3000"
    ∧ ¬ (createProxyAppTargetUrl "8080"
      = specResolveProxyTarget "site.8080.proxy.hts" "example.com 3000") := by
  refine ⟨by decide, by decide, by decide⟩

theorem claim8_counterexample :
    (parseStaticsAndProxiesDomains "http://#x" "site.hts.txt").domains = ["#x"]
    ∧ (parseStaticsAndProxiesDomains "http://#x" "site.hts.txt").rewritten = true
    ∧ (parseStaticsAndProxiesDomains
        (parseStaticsAndProxiesDomains "http://#x" "site.hts.txt").content
        "site.hts.txt").domains = ["site"]
    ∧ ¬ ((parseStaticsAndProxiesDomains
          (parseStaticsAndProxiesDomains "http://#x" "site.hts.txt").content
          "site.hts.txt").domains
        = (parseStaticsAndProxiesDomains "http://#x" "site.hts.txt").domains) := by
  refine ⟨by decide, by decide, by decide, by decide⟩

theorem claim9_counterexample :
    (parseConfigFile
        (writeConfigFile [] [] [⟨"f.proxy.hts", "/srv/f.proxy.hts", [""], some "8080"⟩]
          [] "/app") "/app").map (fun s => s.proxies.map (fun e => e.domains))
      = some [[]]
    ∧ ¬ ((parseConfigFile
          (writeConfigFile [] [] [⟨"f.proxy.hts", "/srv/f.proxy.hts", [""], some "8080"⟩]
            [] "/app") "/app").map (fun s => s.proxies.map (fun e => e.domains))
        = some [[""]]) := by
  refine ⟨by decide, by decide⟩

theorem claim10_bug_eval :
    (parseStaticsAndProxiesDomains "# hello world\nhttp://a/" "site.hts.txt").rewritten = true
    ∧ (parseStaticsAndProxiesDomains "# hello world\nhttp://a/" "site.hts.txt").content = "#\na"
    ∧ "# hello world".data ∉
        splitLinesL (parseStaticsAndProxiesDomains "# hello world\nhttp://a/"
          "site.hts.txt").content.data := by
  refine ⟨by decide, by decide, by decide⟩

theorem claim8_amended_witness :
    ((parseStaticsAndProxiesDomains
        (parseStaticsAndProxiesDomains "example.com\n# note" "site.hts.txt").content
        "site.hts.txt").domains
      = (parseStaticsAndProxiesDomains "example.com\n# note" "site.hts.txt").domains)
    ∧ (parseStaticsAndProxiesDomains
        (parseStaticsAndProxiesDomains "example.com\n# note" "site.hts.txt").content
        "site.hts.txt").rewritten = false :=
  claim8_amended "example.com\n# note" "site.hts.txt" (by decide) (by decide)

theorem claim7_amended (f g : FsFile) (hpath : f.absolutePath = g.absolutePath) :
    ((loadDescriptorOfKind "proxy" f).map DescriptorR.target
      = (loadDescriptorOfKind "proxy" g).map DescriptorR.target)
    ∧ (∀ d, loadDescriptorOfKind "proxy" f = some d →
        d.target = jsTargetOfPath f.absolutePath
        ∧ ∀ t, d.target = some t →
            createProxyAppTargetUrl t = "http://localhost:" ++ t) := by
  constructor
  · simp only [loadDescriptorOfKind, if_pos rfl]
    rw [hpath]
    cases jsTargetOfPath g.absolutePath <;> simp
  · intro d hd
    simp only [loadDescriptorOfKind, if_pos rfl] at hd
    cases ht : jsTargetOfPath f.absolutePath with
    | none =>
      rw [ht] at hd
      simp at hd
    | some t0 =>
      rw [ht] at hd
      simp only [if_true, Option.some.injEq] at hd
      refine ⟨?_, fun t _ => rfl⟩
      rw [← hd]

theorem claim7_amended_witness :
    (loadDescriptorOfKind "proxy"
        ⟨"/srv/a.3000.proxy.hts", "a.3000.proxy.hts", "x 9999"⟩).map DescriptorR.target
      = (loadDescriptorOfKind "proxy"
        ⟨"/srv/a.3000.proxy.hts", "a.3000.proxy.hts", "totally different"⟩).map
          DescriptorR.target :=
  (claim7_amended ⟨"/srv/a.3000.proxy.hts", "a.3000.proxy.hts", "x 9999"⟩
    ⟨"/srv/a.3000.proxy.hts", "a.3000.proxy.hts", "totally different"⟩ rfl).1

end HttpsExpresses
namespace HttpsExpresses

theorem dropWhile_eq_self_of_notWsHead (m : List Char) (h : notWsHead m = true) :
    m.dropWhile isJsWhitespace = m := by
  cases m with
  | nil => rfl
  | cons c rest =>
    simp only [notWsHead, Bool.not_eq_true'] at h
    simp [List.dropWhile_cons, h]

theorem dropWhile_append_all (p : Char → Bool) (sp m : List Char)
    (hsp : ∀ c ∈ sp, p c = true) :
    (sp ++ m).dropWhile p = m.dropWhile p := by
  induction sp with
  | nil => rfl
  | cons c sp ih =>
    simp only [List.cons_append, List.dropWhile_cons, hsp c (by simp), if_true]
    exact ih (fun x hx => hsp x (List.mem_cons_of_mem c hx))

theorem dropWhile_append_of_notWsHead (a b : List Char) (hb : notWsHead b = true) :
    (a ++ b).dropWhile isJsWhitespace = a.dropWhile isJsWhitespace ++ b := by
  induction a with
  | nil => simp [dropWhile_eq_self_of_notWsHead b hb]
  | cons c a ih =>
    simp only [List.cons_append, List.dropWhile_cons]
    by_cases hc : isJsWhitespace c = true
    · simp [hc, ih]
    · simp [hc]

theorem backTrim_append (pre suf : List Char) (hpre : notWsHead pre.reverse = true) :
    backTrim (pre ++ suf) = pre ++ backTrim suf := by
  unfold backTrim
  rw [List.reverse_append, dropWhile_append_of_notWsHead _ _ hpre]
  simp

theorem backTrim_eq_self (m : List Char) (h : notWsHead m.reverse = true) :
    backTrim m = m := by
  have := backTrim_append m [] h
  simpa [backTrim] using this

theorem jsTrim_eq_backTrim (m : List Char) (h : notWsHead m = true) :
    jsTrim m = backTrim m := by
  unfold jsTrim backTrim
  rw [dropWhile_eq_self_of_notWsHead m h]

theorem jsTrim_ws_lead (sp m : List Char)
    (hsp : ∀ c ∈ sp, isJsWhitespace c = true) (hm : notWsHead m = true) :
    jsTrim (sp ++ m) = backTrim m := by
  unfold jsTrim backTrim
  rw [dropWhile_append_all _ sp m hsp, dropWhile_eq_self_of_notWsHead m hm]

theorem isPrefixOf_cons₂ (a b : Char) (as bs : List Char) :
    ((a :: as).isPrefixOf (b :: bs)) = (a == b && as.isPrefixOf bs) := rfl

theorem isPrefixOf_append_of_length_le (pat pre x : List Char)
    (h : pat.length ≤ pre.length) :
    pat.isPrefixOf (pre ++ x) = pat.isPrefixOf pre := by
  induction pat generalizing pre with
  | nil => simp [List.isPrefixOf]
  | cons a as ih =>
    cases pre with
    | nil => simp at h
    | cons b bs =>
      simp only [List.cons_append, isPrefixOf_cons₂]
      rw [ih bs (by simpa using h)]

theorem findCertIdx_append_of_no_paren (dom rest : List Char)
    (h : '(' ∉ lowerL dom) :
    findCertIdx (dom ++ rest) = (findCertIdx rest).map (· + dom.length) := by
  induction dom with
  | nil =>
    cases hfr : findCertIdx rest <;> simp [hfr]
  | cons c dom ih =>
    have hcl : ¬ (Char.toLower c = '(') := by
      intro he
      apply h
      show '(' ∈ lowerL (c :: dom)
      simp only [lowerL, List.map_cons, List.mem_cons]
      exact Or.inl he.symm
    have hc : ¬ ("(cert:".data.isPrefixOf (lowerL (c :: (dom ++ rest))) = true) := by
      show ¬ ((['(', 'c', 'e', 'r', 't', ':'] : List Char).isPrefixOf
          (lowerL (c :: (dom ++ rest))) = true)
      simp only [lowerL, List.map_cons]
      rw [isPrefixOf_cons₂]
      simp only [Bool.and_eq_true, beq_iff_eq]
      intro he
      exact absurd he.1.symm hcl
    have hdom : '(' ∉ lowerL dom := by
      intro hx
      apply h
      simp only [lowerL, List.map_cons, List.mem_cons]
      exact Or.inr (by simpa [lowerL] using hx)
    simp only [List.cons_append, List.append_eq, findCertIdx, if_neg hc]
    rw [ih hdom]
    cases findCertIdx rest <;> simp [Nat.add_assoc, Nat.add_comm]

end HttpsExpresses
namespace HttpsExpresses

theorem notWsHead_append (a b : List Char) (ha : notWsHead a = true) :
    notWsHead (a ++ b) = true := by
  cases a with
  | nil => simp [notWsHead] at ha
  | cons c rest => simpa [notWsHead] using ha

theorem notWsHead_reverse_append_last (x : List Char) (c : Char)
    (hc : ¬ (isJsWhitespace c = true)) :
    notWsHead (x ++ [c]).reverse = true := by
  simp [notWsHead, hc]

theorem stripCert_written_domain (dom st : List Char)
    (hplain : plainTokenL dom = true) (hparen : '(' ∉ lowerL dom)
    (hst : st = "present".data ∨ st = "missing".data) :
    jsTrim (stripCertNote (dom ++ (" (cert: ".data ++ st ++ [')']))) = dom := by
  have hplain' := hplain
  simp only [plainTokenL, Bool.and_eq_true, decide_eq_true_iff] at hplain'
  obtain ⟨⟨⟨hhead, hlast⟩, -⟩, -⟩ := hplain'
  have hfind : findCertIdx (" (cert: ".data ++ st ++ [')']) = some 1 := by
    rcases hst with h | h <;> subst h <;> decide
  have hidx : findCertIdx (dom ++ (" (cert: ".data ++ st ++ [')']))
      = some (1 + dom.length) := by
    rw [findCertIdx_append_of_no_paren dom _ hparen, hfind]
    rfl
  have hlastc : (dom ++ (" (cert: ".data ++ st ++ [')'])).getLast? = some ')' := by
    rw [List.getLast?_append_of_ne_nil _ (by simp)]
    rw [List.getLast?_append_of_ne_nil _ (by simp)]
    rfl
  unfold stripCertNote
  rw [hidx]
  simp only [hlastc, if_pos rfl]
  rw [Nat.add_comm 1 dom.length]
  rw [show (" (cert: ".data ++ st ++ [')']) = ' ' :: ("(cert: ".data ++ st ++ [')'])
    from rfl]
  rw [List.take_append 1]
  rw [show (' ' :: ("(cert: ".data ++ st ++ [')'])).take 1 = [' '] from rfl]
  simp only [if_true]
  rw [jsTrim_eq_backTrim _ (notWsHead_append dom [' '] hhead)]
  rw [backTrim_append dom [' '] hlast]
  rw [show backTrim [' '] = [] by decide]
  simp

end HttpsExpresses
namespace HttpsExpresses

theorem plainTokenL_parts (t : List Char) (h : plainTokenL t = true) :
    notWsHead t = true ∧ notWsHead t.reverse = true ∧ '\n' ∉ t ∧ '\r' ∉ t := by
  simp only [plainTokenL, Bool.and_eq_true, decide_eq_true_iff] at h
  exact ⟨h.1.1.1, h.1.1.2, h.1.2, h.2⟩

theorem plainTokenL_ne_nil (t : List Char) (h : plainTokenL t = true) : t ≠ [] := by
  intro he
  subst he
  simp [plainTokenL, notWsHead] at h

theorem jsTrim_of_plain (t : List Char) (h : plainTokenL t = true) : jsTrim t = t := by
  obtain ⟨h1, h2, -, -⟩ := plainTokenL_parts t h
  rw [jsTrim_eq_backTrim t h1, backTrim_eq_self t h2]

theorem parse_blank_line_step (curr : Option PEntry) (rest : List (List Char))
    (acc : List PEntry) :
    parseCfgLines ([] :: rest) curr acc = parseCfgLines rest none (flushEntry curr acc) := by
  simp only [parseCfgLines]
  rw [if_pos (by decide)]

theorem parse_head_line_step (p : String) (hp : goodCfgPath p = true)
    (curr : Option PEntry) (rest : List (List Char)) (acc : List PEntry) :
    parseCfgLines (p.data :: rest) curr acc
      = parseCfgLines rest (some ⟨p, none, none, none, []⟩) (flushEntry curr acc) := by
  obtain ⟨pl⟩ := p
  simp only [goodCfgPath, Bool.and_eq_true] at hp
  obtain ⟨hslash, hplain⟩ := hp
  obtain ⟨t, ht⟩ := List.isPrefixOf_iff_prefix.1 hslash
  have htrim : jsTrim pl = pl := jsTrim_of_plain _ hplain
  show parseCfgLines (pl :: rest) curr acc = _
  simp only [parseCfgLines, htrim]
  rw [if_neg (by simpa using plainTokenL_ne_nil _ hplain)]
  rw [if_pos ?hpre]
  case hpre =>
    intro hsp
    obtain ⟨t', ht'⟩ := List.isPrefixOf_iff_prefix.1 hsp
    rw [← ht] at ht'
    simp at ht'

end HttpsExpresses
namespace HttpsExpresses

theorem sp2_ws : ∀ c ∈ ("  ".data : List Char), isJsWhitespace c = true := by decide

theorem sp4_ws : ∀ c ∈ ("    ".data : List Char), isJsWhitespace c = true := by decide

theorem space_prefix_two (m : List Char) :
    (" ".data.isPrefixOf ("  ".data ++ m)) = true := by
  rw [show ("  ".data ++ m) = ' ' :: (' ' :: m) from rfl]
  rw [show (" ".data : List Char) = [' '] from rfl, isPrefixOf_cons₂]
  simp [List.isPrefixOf]

theorem space_prefix_four (m : List Char) :
    (" ".data.isPrefixOf ("    ".data ++ m)) = true := by
  rw [show ("    ".data ++ m) = ' ' :: ("   ".data ++ m) from rfl]
  rw [show (" ".data : List Char) = [' '] from rfl, isPrefixOf_cons₂]
  simp [List.isPrefixOf]

end HttpsExpresses
namespace HttpsExpresses

theorem notWsHead_cons (ch : Char) (x : List Char) (h : isJsWhitespace ch = false) :
    notWsHead (ch :: x) = true := by
  simp [notWsHead, h]

theorem parse_type_line_step (ty : String) (hty : plainTokenL ty.data = true)
    (c : PEntry) (rest : List (List Char)) (acc : List PEntry) :
    parseCfgLines (("  type: " ++ ty).data :: rest) (some c) acc
      = parseCfgLines rest (some { c with type := some ty }) acc := by
  obtain ⟨tyl⟩ := ty
  obtain ⟨hhead, hlast, -, -⟩ := plainTokenL_parts _ hty
  have hrevfull : notWsHead ("type: ".data ++ tyl).reverse = true := by
    rw [List.reverse_append]
    exact notWsHead_append _ _ hlast
  have htrim : jsTrim ("  ".data ++ ("type: ".data ++ tyl)) = "type: ".data ++ tyl := by
    rw [jsTrim_ws_lead _ _ sp2_ws (by
      rw [show ("type: ".data ++ tyl) = 't' :: ("ype: ".data ++ tyl) from rfl]
      exact notWsHead_cons _ _ (by decide))]
    exact backTrim_eq_self _ hrevfull
  have hdata : ("  type: " ++ (⟨tyl⟩ : String)).data = "  ".data ++ ("type: ".data ++ tyl) := by
    rw [String.data_append]
    rfl
  have hval : afterColonTrim ("type: ".data ++ tyl) = tyl := by
    unfold afterColonTrim
    rw [show ("type: ".data ++ tyl) = 't' :: 'y' :: 'p' :: 'e' :: ':' :: (' ' :: tyl)
      from rfl]
    simp only [List.dropWhile_cons]
    rw [if_pos (by decide), if_pos (by decide), if_pos (by decide), if_pos (by decide),
      if_neg (by decide)]
    rw [show (':' :: ' ' :: tyl).drop 1 = [' '] ++ tyl from rfl]
    rw [jsTrim_ws_lead [' '] tyl (by decide) hhead]
    exact backTrim_eq_self _ hlast
  simp only [parseCfgLines, hdata, htrim]
  rw [if_neg (by simp)]
  rw [if_neg (fun hn => hn (space_prefix_two _))]
  rw [if_pos ?hpre]
  case hpre =>
    rw [isPrefixOf_append_of_length_le _ _ _ (by decide)]
    decide
  rw [hval]

end HttpsExpresses
namespace HttpsExpresses

theorem parse_target_line_step (t : String) (ht : plainTokenL t.data = true)
    (c : PEntry) (rest : List (List Char)) (acc : List PEntry) :
    parseCfgLines (("  target: " ++ t).data :: rest) (some c) acc
      = parseCfgLines rest (some { c with target := some t }) acc := by
  obtain ⟨tl⟩ := t
  obtain ⟨hhead, hlast, -, -⟩ := plainTokenL_parts _ ht
  have hrevfull : notWsHead ("target: ".data ++ tl).reverse = true := by
    rw [List.reverse_append]
    exact notWsHead_append _ _ hlast
  have htrim : jsTrim ("  ".data ++ ("target: ".data ++ tl)) = "target: ".data ++ tl := by
    rw [jsTrim_ws_lead _ _ sp2_ws (by
      rw [show ("target: ".data ++ tl) = 't' :: ("arget: ".data ++ tl) from rfl]
      exact notWsHead_cons _ _ (by decide))]
    exact backTrim_eq_self _ hrevfull
  have hdata : ("  target: " ++ (⟨tl⟩ : String)).data
      = "  ".data ++ ("target: ".data ++ tl) := by
    rw [String.data_append]
    rfl
  have hval : afterColonTrim ("target: ".data ++ tl) = tl := by
    unfold afterColonTrim
    rw [show ("target: ".data ++ tl)
      = 't' :: 'a' :: 'r' :: 'g' :: 'e' :: 't' :: ':' :: (' ' :: tl) from rfl]
    simp only [List.dropWhile_cons]
    rw [if_pos (by decide), if_pos (by decide), if_pos (by decide), if_pos (by decide),
      if_pos (by decide), if_pos (by decide), if_neg (by decide)]
    rw [show (':' :: ' ' :: tl).drop 1 = [' '] ++ tl from rfl]
    rw [jsTrim_ws_lead [' '] tl (by decide) hhead]
    exact backTrim_eq_self _ hlast
  simp only [parseCfgLines, hdata, htrim]
  rw [if_neg (by simp)]
  rw [if_neg (fun hn => hn (space_prefix_two _))]
  rw [if_neg ?htype]
  case htype =>
    rw [isPrefixOf_append_of_length_le _ _ _ (by decide)]
    decide
  rw [if_pos ?htarget]
  case htarget =>
    rw [isPrefixOf_append_of_length_le _ _ _ (by decide)]
    decide
  rw [hval]

theorem parse_dir_line_step (D : String) (c : PEntry) (rest : List (List Char))
    (acc : List PEntry) :
    parseCfgLines (("  dir: " ++ D).data :: rest) (some c) acc
      = parseCfgLines rest
          (some { c with dir := some ⟨afterColonTrim (jsTrim ("  dir: " ++ D).data)⟩ })
          acc := by
  obtain ⟨dl⟩ := D
  have hdata : ("  dir: " ++ (⟨dl⟩ : String)).data = "  ".data ++ ("dir: ".data ++ dl) := by
    rw [String.data_append]
    rfl
  have hsplit : ("dir: ".data ++ dl) = "dir:".data ++ (' ' :: dl) := rfl
  have htrim : jsTrim ("  ".data ++ ("dir: ".data ++ dl))
      = "dir:".data ++ backTrim (' ' :: dl) := by
    rw [jsTrim_ws_lead _ _ sp2_ws (by
      rw [show ("dir: ".data ++ dl) = 'd' :: ("ir: ".data ++ dl) from rfl]
      exact notWsHead_cons _ _ (by decide))]
    rw [hsplit]
    exact backTrim_append _ _ (by decide)
  simp only [parseCfgLines, hdata, htrim]
  rw [if_neg (by simp)]
  rw [if_neg (fun hn => hn (space_prefix_two _))]
  rw [if_neg ?htype]
  case htype =>
    rw [show ("dir:".data ++ backTrim (' ' :: dl))
      = 'd' :: ("ir:".data ++ backTrim (' ' :: dl)) from rfl]
    rw [isPrefixOf_cons₂]
    simp
  rw [if_neg ?htgt]
  case htgt =>
    rw [show ("dir:".data ++ backTrim (' ' :: dl))
      = 'd' :: ("ir:".data ++ backTrim (' ' :: dl)) from rfl]
    rw [isPrefixOf_cons₂]
    simp
  rw [if_pos ?hdir]
  case hdir =>
    rw [isPrefixOf_append_of_length_le _ _ _ (by decide)]
    decide

theorem parse_domains_header_step (c : PEntry) (rest : List (List Char))
    (acc : List PEntry) :
    parseCfgLines ("  domains:".data :: rest) (some c) acc
      = parseCfgLines rest (some c) acc := by
  simp only [parseCfgLines]
  rw [if_neg (by decide), if_neg (by decide), if_neg (by decide), if_neg (by decide),
    if_neg (by decide), if_neg (by decide)]

theorem parse_none_line_step (c : PEntry) (rest : List (List Char))
    (acc : List PEntry) :
    parseCfgLines ("    - (none) (cert: n/a)".data :: rest) (some c) acc
      = parseCfgLines rest (some c) acc := by
  simp only [parseCfgLines]
  rw [if_neg (by decide), if_neg (by decide), if_neg (by decide), if_neg (by decide),
    if_neg (by decide), if_pos (by decide), if_neg (by decide)]

end HttpsExpresses
namespace HttpsExpresses

theorem parse_domain_line_step (dom : String) (cert : Bool)
    (hdom : goodCfgDomain dom = true)
    (c : PEntry) (rest : List (List Char)) (acc : List PEntry) :
    parseCfgLines
        ((("    - " ++ dom ++ " (cert: " ++ (if cert then "present" else "missing")
          ++ ")").data) :: rest) (some c) acc
      = parseCfgLines rest (some { c with domains := c.domains ++ [dom] }) acc := by
  obtain ⟨dl⟩ := dom
  simp only [goodCfgDomain, Bool.and_eq_true, decide_eq_true_iff] at hdom
  obtain ⟨hplain, hparen⟩ := hdom
  obtain ⟨hhead, hlast, -, -⟩ := plainTokenL_parts _ hplain
  set st : List Char := (if cert then "present" else "missing").data with hst
  have hstval : st = "present".data ∨ st = "missing".data := by
    rw [hst]
    cases cert
    · exact Or.inr (by simp)
    · exact Or.inl (by simp)
  have hdata : (("    - " ++ (⟨dl⟩ : String) ++ " (cert: "
        ++ (if cert then "present" else "missing") ++ ")").data)
      = "    ".data ++ ("- ".data ++ (dl ++ (" (cert: ".data ++ st ++ [')']))) := by
    simp only [String.data_append, hst]
    cases cert <;> simp
  have hrevfull : notWsHead ("- ".data ++ (dl ++ (" (cert: ".data ++ st ++ [')']))).reverse
      = true := by
    rw [show ("- ".data ++ (dl ++ (" (cert: ".data ++ st ++ [')'])))
      = ("- ".data ++ (dl ++ (" (cert: ".data ++ st))) ++ [')'] from by simp]
    exact notWsHead_reverse_append_last _ _ (by decide)
  have htrim : jsTrim ("    ".data ++ ("- ".data ++ (dl ++ (" (cert: ".data ++ st ++ [')']))))
      = "- ".data ++ (dl ++ (" (cert: ".data ++ st ++ [')'])) := by
    rw [jsTrim_ws_lead _ _ sp4_ws (by
      rw [show ("- ".data ++ (dl ++ (" (cert: ".data ++ st ++ [')'])))
        = '-' :: (" ".data ++ (dl ++ (" (cert: ".data ++ st ++ [')']))) from rfl]
      exact notWsHead_cons _ _ (by decide))]
    exact backTrim_eq_self _ hrevfull
  simp only [parseCfgLines, hdata, htrim]
  rw [if_neg (by simp)]
  rw [if_neg (fun hn => hn (space_prefix_four _))]
  rw [if_neg ?htype]
  case htype =>
    rw [show ("- ".data ++ (dl ++ (" (cert: ".data ++ st ++ [')'])))
      = '-' :: (" ".data ++ (dl ++ (" (cert: ".data ++ st ++ [')']))) from rfl]
    rw [isPrefixOf_cons₂]
    simp
  rw [if_neg ?htgt]
  case htgt =>
    rw [show ("- ".data ++ (dl ++ (" (cert: ".data ++ st ++ [')'])))
      = '-' :: (" ".data ++ (dl ++ (" (cert: ".data ++ st ++ [')']))) from rfl]
    rw [isPrefixOf_cons₂]
    simp
  rw [if_neg ?hdir]
  case hdir =>
    rw [show ("- ".data ++ (dl ++ (" (cert: ".data ++ st ++ [')'])))
      = '-' :: (" ".data ++ (dl ++ (" (cert: ".data ++ st ++ [')']))) from rfl]
    rw [isPrefixOf_cons₂]
    simp
  rw [if_pos ?hdash]
  case hdash =>
    rw [show ("- ".data ++ (dl ++ (" (cert: ".data ++ st ++ [')'])))
      = '-' :: (" ".data ++ (dl ++ (" (cert: ".data ++ st ++ [')']))) from rfl]
    rw [isPrefixOf_cons₂]
    simp [List.isPrefixOf]
  have hdrop : ("- ".data ++ (dl ++ (" (cert: ".data ++ st ++ [')']))).drop 1
      = [' '] ++ (dl ++ (" (cert: ".data ++ st ++ [')'])) := rfl
  rw [hdrop]
  rw [jsTrim_ws_lead [' '] _ (by decide) (notWsHead_append _ _ hhead)]
  rw [backTrim_eq_self _ (by
    rw [show (dl ++ (" (cert: ".data ++ st ++ [')']))
      = (dl ++ (" (cert: ".data ++ st)) ++ [')'] from by simp]
    exact notWsHead_reverse_append_last _ _ (by decide))]
  rw [show (dl ++ (" (cert: ".data ++ st ++ [')'])) = dl ++ (" (cert: ".data ++ (st ++ [')'])) from by simp]
  rw [show (" (cert: ".data ++ (st ++ [')'])) = (" (cert: ".data ++ st ++ [')']) from by simp]
  rw [stripCert_written_domain dl st hplain hparen hstval]
  rw [if_pos ?hkeep]
  case hkeep =>
    refine ⟨plainTokenL_ne_nil _ hplain, ?_⟩
    intro he
    apply hparen
    rw [he]
    decide

end HttpsExpresses
namespace HttpsExpresses

theorem parse_domain_lines (doms : List String) (certs : List CertEntry)
    (hdoms : ∀ dom ∈ doms, goodCfgDomain dom = true)
    (c : PEntry) (rest : List (List Char)) (acc : List PEntry) :
    parseCfgLines
        ((doms.map (fun dom =>
          ("    - " ++ dom ++ " (cert: "
            ++ (if hasCertificateForDomain dom certs then "present" else "missing")
            ++ ")").data)) ++ rest) (some c) acc
      = parseCfgLines rest (some { c with domains := c.domains ++ doms }) acc := by
  induction doms generalizing c with
  | nil => simp
  | cons dom doms ih =>
    simp only [List.map_cons, List.cons_append]
    rw [parse_domain_line_step dom _ (hdoms dom (by simp)) c _ acc]
    rw [ih (fun x hx => hdoms x (List.mem_cons_of_mem dom hx))]
    simp

end HttpsExpresses
namespace HttpsExpresses

theorem flushEntry_some_keep (e : PEntry) (acc : List PEntry)
    (htype : ¬ (e.type.getD "" = "")) (hid : ¬ (e.id = "")) :
    flushEntry (some e) acc = acc ++ [e] := by
  simp [flushEntry, htype, hid]

theorem plain_string_ne_empty (s : String) (h : plainTokenL s.data = true) :
    ¬ (s = "") := by
  intro he
  exact plainTokenL_ne_nil s.data h (by rw [he])

theorem parse_tail_lines (doms : List String) (certs : List CertEntry)
    (hdoms : ∀ dom ∈ doms, goodCfgDomain dom = true)
    (c : PEntry) (rest : List (List Char)) (acc : List PEntry)
    (htype : ¬ (c.type.getD "" = "")) (hid : ¬ (c.id = "")) :
    parseCfgLines
        (("  domains:".data
          :: ((if doms = [] then ["    - (none) (cert: n/a)".data]
               else doms.map (fun dom =>
                 ("    - " ++ dom ++ " (cert: "
                   ++ (if hasCertificateForDomain dom certs then "present" else "missing")
                   ++ ")").data))
            ++ ([] :: rest)))) (some c) acc
      = parseCfgLines rest none (acc ++ [{ c with domains := c.domains ++ doms }]) := by
  rw [parse_domains_header_step _ _ _]
  by_cases hde : doms = []
  · subst hde
    rw [if_pos rfl]
    simp only [List.singleton_append]
    rw [parse_none_line_step _ _ _]
    rw [parse_blank_line_step _ _ _]
    rw [flushEntry_some_keep c acc htype hid]
    simp
  · rw [if_neg hde]
    rw [parse_domain_lines doms certs hdoms _ _ _]
    rw [parse_blank_line_step _ _ _]
    rw [flushEntry_some_keep { c with domains := c.domains ++ doms } acc htype hid]

theorem parse_block (ty : String) (hty : plainTokenL ty.data = true)
    (certs : List CertEntry) (dirname : String) (d : CfgDescriptor)
    (hpath : goodCfgPath d.absolutePath = true)
    (hdoms : ∀ dom ∈ d.domains, goodCfgDomain dom = true)
    (htarget : goodCfgTarget d.target = true)
    (rest : List (List Char)) (curr : Option PEntry) (acc : List PEntry) :
    parseCfgLines (pushEntryLines certs dirname ty d ++ rest) curr acc
      = parseCfgLines rest none
          ((flushEntry curr acc) ++ [blockEntry dirname ty d]) := by
  have hplainp : plainTokenL d.absolutePath.data = true := by
    have hp := hpath
    simp only [goodCfgPath, Bool.and_eq_true] at hp
    exact hp.2
  have hne : ¬ (d.absolutePath = "") := plain_string_ne_empty _ hplainp
  have htyne : ¬ (ty = "") := plain_string_ne_empty _ hty
  unfold pushEntryLines blockEntry
  rw [if_pos hne]
  simp only [List.append_assoc, List.cons_append, List.nil_append]
  rw [parse_head_line_step d.absolutePath hpath curr _ acc]
  rw [parse_type_line_step ty hty _ _ _]
  rw [parse_dir_line_step (dirnameOf d.absolutePath) _ _ _]
  cases htgt : d.target with
  | none =>
    simp only [List.nil_append]
    rw [parse_tail_lines d.domains certs hdoms _ rest (flushEntry curr acc)
      (by simpa using htyne) hne]
    simp
  | some t =>
    have htp : plainTokenL t.data = true := by
      have h := htarget
      rw [htgt] at h
      exact h
    have hlines : (match some t with
        | some t => if ty = "proxy" ∧ ¬ (t = "") then [("  target: " ++ t).data]
          else ([] : List (List Char))
        | none => ([] : List (List Char)))
      = if ty = "proxy" ∧ ¬ (t = "") then [("  target: " ++ t).data] else [] := rfl
    have hbe : (match some t with
        | some t => if ty = "proxy" ∧ ¬ (t = "") then some t else none
        | none => (none : Option String))
      = if ty = "proxy" ∧ ¬ (t = "") then some t else none := rfl
    rw [hlines, hbe]
    by_cases hc : ty = "proxy" ∧ ¬ (t = "")
    · rw [if_pos hc, if_pos hc]
      simp only [List.singleton_append, List.cons_append, List.nil_append]
      rw [parse_target_line_step t htp _ _ _]
      rw [parse_tail_lines d.domains certs hdoms _ rest (flushEntry curr acc)
        (by simpa using htyne) hne]
      simp
    · rw [if_neg hc, if_neg hc]
      simp only [List.nil_append]
      rw [parse_tail_lines d.domains certs hdoms _ rest (flushEntry curr acc)
        (by simpa using htyne) hne]
      simp

end HttpsExpresses
namespace HttpsExpresses

theorem parse_blocks (ty : String) (hty : plainTokenL ty.data = true)
    (certs : List CertEntry) (dirname : String) (ds : List CfgDescriptor)
    (hgood : ∀ d ∈ ds, goodCfgPath d.absolutePath = true
      ∧ (∀ dom ∈ d.domains, goodCfgDomain dom = true)
      ∧ goodCfgTarget d.target = true)
    (rest : List (List Char)) (acc : List PEntry) :
    parseCfgLines ((ds.map (pushEntryLines certs dirname ty)).flatten ++ rest) none acc
      = parseCfgLines rest none (acc ++ ds.map (blockEntry dirname ty)) := by
  induction ds generalizing acc with
  | nil => simp
  | cons d ds ih =>
    simp only [List.map_cons, List.flatten_cons, List.append_assoc]
    have hd := hgood d (by simp)
    rw [parse_block ty hty certs dirname d hd.1 hd.2.1 hd.2.2 _ none acc]
    rw [show flushEntry none acc = acc from rfl]
    rw [ih (fun x hx => hgood x (List.mem_cons_of_mem d hx))]
    simp

theorem mem_dirnameOf (p : String) (c : Char) (h : c ∈ (dirnameOf p).data) :
    c ∈ p.data ∨ c = '.' ∨ c = '/' := by
  simp only [dirnameOf] at h
  split at h
  · right; left
    simpa using h
  · split at h
    · right; right
      simpa using h
    · left
      simp only [String.data] at h
      rw [List.mem_reverse] at h
      have h1 := List.mem_of_mem_drop h
      have h2 := (List.dropWhile_sublist _).mem h1
      rw [List.mem_reverse, List.mem_reverse] at h2
      have h3 := (List.dropWhile_sublist _).mem h2
      rw [List.mem_reverse] at h3
      exact h3

end HttpsExpresses
namespace HttpsExpresses

theorem no_break_of_concat_plain (pre : String) (t : List Char)
    (hpre : '\n' ∉ pre.data ∧ '\r' ∉ pre.data)
    (ht : '\n' ∉ t ∧ '\r' ∉ t) :
    '\n' ∉ (pre.data ++ t) ∧ '\r' ∉ (pre.data ++ t) := by
  constructor <;> intro hx <;> rcases List.mem_append.1 hx with h | h
  · exact hpre.1 h
  · exact ht.1 h
  · exact hpre.2 h
  · exact ht.2 h

theorem pushEntryLines_no_break (certs : List CertEntry) (dirname : String)
    (ty : String) (d : CfgDescriptor)
    (hty : plainTokenL ty.data = true)
    (hpath : goodCfgPath d.absolutePath = true)
    (hdoms : ∀ dom ∈ d.domains, goodCfgDomain dom = true)
    (htarget : goodCfgTarget d.target = true) :
    ∀ line ∈ pushEntryLines certs dirname ty d, '\n' ∉ line ∧ '\r' ∉ line := by
  have hplainp : plainTokenL d.absolutePath.data = true := by
    have hp := hpath
    simp only [goodCfgPath, Bool.and_eq_true] at hp
    exact hp.2
  have hne : ¬ (d.absolutePath = "") := plain_string_ne_empty _ hplainp
  obtain ⟨-, -, hpn, hpr⟩ := plainTokenL_parts _ hplainp
  obtain ⟨-, -, htn, htr⟩ := plainTokenL_parts _ hty
  intro line hline
  unfold pushEntryLines at hline
  rw [if_pos hne] at hline
  rcases List.mem_append.1 hline with h4 | h5
  rotate_left
  · simp only [List.mem_singleton] at h5
    subst h5
    constructor <;> simp
  rcases List.mem_append.1 h4 with h3 | hD
  rotate_left
  · by_cases hde : d.domains = []
    · rw [if_pos hde] at hD
      simp only [List.mem_singleton] at hD
      subst hD
      constructor <;> decide
    · rw [if_neg hde] at hD
      simp only [List.mem_map] at hD
      obtain ⟨dom, hdm, he⟩ := hD
      have hg := hdoms dom hdm
      simp only [goodCfgDomain, Bool.and_eq_true] at hg
      obtain ⟨-, -, hn, hr⟩ := plainTokenL_parts _ hg.1
      subst he
      have hcore : '\n' ∉ ("    - " ++ dom ++ " (cert: "
            ++ (if hasCertificateForDomain dom certs then "present" else "missing")
            ++ ")").data
          ∧ '\r' ∉ ("    - " ++ dom ++ " (cert: "
            ++ (if hasCertificateForDomain dom certs then "present" else "missing")
            ++ ")").data := by
        simp only [String.data_append]
        constructor <;> intro hx <;>
          rcases List.mem_append.1 hx with hx | hx
        · rcases List.mem_append.1 hx with hx | hx
          · rcases List.mem_append.1 hx with hx | hx
            · rcases List.mem_append.1 hx with hx | hx
              · revert hx; decide
              · exact hn hx
            · revert hx; decide
          · revert hx
            cases hasCertificateForDomain dom certs <;> decide
        · revert hx; decide
        · rcases List.mem_append.1 hx with hx | hx
          · rcases List.mem_append.1 hx with hx | hx
            · rcases List.mem_append.1 hx with hx | hx
              · revert hx; decide
              · exact hr hx
            · revert hx; decide
          · revert hx
            cases hasCertificateForDomain dom certs <;> decide
        · revert hx; decide
      exact hcore
  rcases List.mem_append.1 h3 with h2 | hdh
  rotate_left
  · simp only [List.mem_singleton] at hdh
    subst hdh
    constructor <;> decide
  rcases List.mem_append.1 h2 with h1 | hT
  rotate_left
  · cases htg : d.target with
    | none =>
      rw [htg] at hT
      simp at hT
    | some t =>
      rw [htg] at hT
      rw [show (match some t with
        | some t => if ty = "proxy" ∧ ¬ (t = "") then [("  target: " ++ t).data]
          else ([] : List (List Char))
        | none => ([] : List (List Char)))
        = if ty = "proxy" ∧ ¬ (t = "") then [("  target: " ++ t).data] else []
        from rfl] at hT
      have htp : plainTokenL t.data = true := by
        have hh := htarget
        rw [htg] at hh
        exact hh
      obtain ⟨-, -, hn, hr⟩ := plainTokenL_parts _ htp
      by_cases hct : ty = "proxy" ∧ ¬ (t = "")
      · rw [if_pos hct] at hT
        simp only [List.mem_singleton] at hT
        subst hT
        exact no_break_of_concat_plain "  target: " t.data (by constructor <;> decide)
          ⟨hn, hr⟩
      · rw [if_neg hct] at hT
        simp at hT
  simp only [List.mem_cons, List.not_mem_nil, or_false] at h1
  rcases h1 with h | h | h
  · subst h
    exact ⟨hpn, hpr⟩
  · subst h
    exact no_break_of_concat_plain "  type: " ty.data (by constructor <;> decide) ⟨htn, htr⟩
  · subst h
    refine no_break_of_concat_plain "  dir: " (dirnameOf d.absolutePath).data
      (by constructor <;> decide) ⟨?_, ?_⟩
    · intro hx
      rcases mem_dirnameOf _ _ hx with h | h | h
      · exact hpn h
      · simp at h
      · simp at h
    · intro hx
      rcases mem_dirnameOf _ _ hx with h | h | h
      · exact hpr h
      · simp at h
      · simp at h

end HttpsExpresses
namespace HttpsExpresses

theorem blockEntry_type (dirname ty : String) (d : CfgDescriptor) :
    (blockEntry dirname ty d).type = some ty := rfl

theorem blockEntry_id (dirname ty : String) (d : CfgDescriptor) :
    (blockEntry dirname ty d).id = d.absolutePath := rfl

theorem mapEntries_blocks_same (dirname ty : String) (ds : List CfgDescriptor)
    (hgood : ∀ d ∈ ds, goodCfgPath d.absolutePath = true) :
    mapEntries (ds.map (blockEntry dirname ty)) ty dirname
      = ds.map (fun d => ⟨d.absolutePath, basenameOf d.absolutePath, d.domains,
          (blockEntry dirname ty d).target⟩) := by
  induction ds with
  | nil => rfl
  | cons d ds ih =>
    have hd := hgood d (by simp)
    have hne : ¬ (d.absolutePath = "") := by
      simp only [goodCfgPath, Bool.and_eq_true] at hd
      exact plain_string_ne_empty _ hd.2
  
    have habs : isAbsolutePath d.absolutePath = true := by
      simp only [goodCfgPath, Bool.and_eq_true] at hd
      exact hd.1
    simp only [List.map_cons]
    unfold mapEntries at ih ⊢
    rw [List.filter_cons]
    rw [if_pos (by
      simp only [blockEntry_type, blockEntry_id, decide_eq_true_iff]
      exact ⟨trivial, hne⟩)]
    simp only [List.map_cons]
    rw [show (blockEntry dirname ty d).id = d.absolutePath from rfl]
    rw [if_pos habs]
    congr 1
    exact ih (fun x hx => hgood x (List.mem_cons_of_mem d hx))

theorem mapEntries_blocks_other (dirname ty ty₀ : String) (hne : ¬ (ty = ty₀))
    (ds : List CfgDescriptor) :
    mapEntries (ds.map (blockEntry dirname ty)) ty₀ dirname = [] := by
  induction ds with
  | nil => rfl
  | cons d ds ih =>
    unfold mapEntries at ih ⊢
    simp only [List.map_cons, List.filter_cons]
    rw [if_neg (by
      simp only [blockEntry_type, decide_eq_true_iff]
      intro hcon
      exact hne (by injection hcon.1))]
    exact ih

theorem mapEntries_append (e₁ e₂ : List PEntry) (ty dirname : String) :
    mapEntries (e₁ ++ e₂) ty dirname
      = mapEntries e₁ ty dirname ++ mapEntries e₂ ty dirname := by
  unfold mapEntries
  rw [List.filter_append, List.map_append]

theorem blockEntry_target_proxy (dirname : String) (d : CfgDescriptor)
    (htarget : goodCfgTarget d.target = true) :
    (blockEntry dirname "proxy" d).target = d.target := by
  unfold blockEntry
  cases htg : d.target with
  | none => rfl
  | some t =>
    have htp : plainTokenL t.data = true := by
      have hh := htarget
      rw [htg] at hh
      exact hh
    show (if ("proxy" : String) = "proxy" ∧ ¬ (t = "") then some t else none) = some t
    rw [if_pos ⟨rfl, plain_string_ne_empty t htp⟩]

end HttpsExpresses
namespace HttpsExpresses

theorem pushEntryLines_ne_nil (certs : List CertEntry) (dirname ty : String)
    (d : CfgDescriptor) : pushEntryLines certs dirname ty d ≠ [] := by
  unfold pushEntryLines
  split <;> simp

theorem flatten_blocks_eq_nil (certs : List CertEntry) (dirname ty : String)
    (ds : List CfgDescriptor)
    (h : (ds.map (pushEntryLines certs dirname ty)).flatten = []) : ds = [] := by
  cases ds with
  | nil => rfl
  | cons d ds =>
    exfalso
    simp only [List.map_cons, List.flatten_cons, List.append_eq_nil] at h
    exact pushEntryLines_ne_nil certs dirname ty d h.1

theorem pushEntryLines_congr (certs : List CertEntry) (dirname ty : String)
    (d d' : CfgDescriptor)
    (hpath : d'.absolutePath = d.absolutePath)
    (hne : ¬ (d.absolutePath = ""))
    (hdoms : d'.domains = d.domains)
    (htgt : (match d'.target with
             | some t => if ty = "proxy" ∧ ¬ (t = "") then [("  target: " ++ t).data]
               else ([] : List (List Char))
             | none => ([] : List (List Char)))
          = (match d.target with
             | some t => if ty = "proxy" ∧ ¬ (t = "") then [("  target: " ++ t).data]
               else ([] : List (List Char))
             | none => ([] : List (List Char)))) :
    pushEntryLines certs dirname ty d' = pushEntryLines certs dirname ty d := by
  unfold pushEntryLines
  rw [hpath, hdoms, htgt]
  rw [if_pos hne]
  rw [if_pos hne]

theorem blockEntry_target_lines (dirname ty : String) (d : CfgDescriptor) :
    (match (blockEntry dirname ty d).target with
     | some t => if ty = "proxy" ∧ ¬ (t = "") then [("  target: " ++ t).data]
       else ([] : List (List Char))
     | none => ([] : List (List Char)))
      = (match d.target with
         | some t => if ty = "proxy" ∧ ¬ (t = "") then [("  target: " ++ t).data]
           else ([] : List (List Char))
         | none => ([] : List (List Char))) := by
  show (match (match d.target with
         | some t => if ty = "proxy" ∧ ¬ (t = "") then some t else none
         | none => none) with
     | some t => if ty = "proxy" ∧ ¬ (t = "") then [("  target: " ++ t).data]
       else ([] : List (List Char))
     | none => ([] : List (List Char))) = _
  cases d.target with
  | none => rfl
  | some t =>
    rw [show (match some t with
        | some t => if ty = "proxy" ∧ ¬ (t = "") then some t else none
        | none => (none : Option String))
      = if ty = "proxy" ∧ ¬ (t = "") then some t else none from rfl]
    rw [show (match some t with
        | some t => if ty = "proxy" ∧ ¬ (t = "") then [("  target: " ++ t).data]
          else ([] : List (List Char))
        | none => ([] : List (List Char)))
      = if ty = "proxy" ∧ ¬ (t = "") then [("  target: " ++ t).data] else [] from rfl]
    by_cases hc : ty = "proxy" ∧ ¬ (t = "")
    · rw [if_pos hc]
    · rw [if_neg hc]
      simp only [not_and, not_not] at hc
      simpa using hc

end HttpsExpresses
namespace HttpsExpresses

theorem claim9_amended
    (servers statics proxies : List CfgDescriptor) (certs : List CertEntry)
    (dirname : String)
    (hs : ∀ d ∈ servers, goodCfgPath d.absolutePath = true
      ∧ (∀ dom ∈ d.domains, goodCfgDomain dom = true) ∧ goodCfgTarget d.target = true)
    (hst : ∀ d ∈ statics, goodCfgPath d.absolutePath = true
      ∧ (∀ dom ∈ d.domains, goodCfgDomain dom = true) ∧ goodCfgTarget d.target = true)
    (hp : ∀ d ∈ proxies, goodCfgPath d.absolutePath = true
      ∧ (∀ dom ∈ d.domains, goodCfgDomain dom = true) ∧ goodCfgTarget d.target = true) :
    ∃ cfg, parseConfigFile (writeConfigFile servers statics proxies certs dirname) dirname
        = some cfg
      ∧ cfg.proxies.map (fun e => (e.absolutePath, e.domains, e.target))
          = proxies.map (fun d => (d.absolutePath, d.domains, d.target))
      ∧ cfg.statics.map (fun e => (e.absolutePath, e.domains))
          = statics.map (fun d => (d.absolutePath, d.domains))
      ∧ cfg.servers.map (fun e => (e.absolutePath, e.domains))
          = servers.map (fun d => (d.absolutePath, d.domains))
      ∧ writeConfigFile (cfg.servers.map toCfgDescriptor) (cfg.statics.map toCfgDescriptor)
          (cfg.proxies.map toCfgDescriptor) certs dirname
          = writeConfigFile servers statics proxies certs dirname := by
  have hplainProxy : plainTokenL ("proxy" : String).data = true := by decide
  have hplainStatic : plainTokenL ("static" : String).data = true := by decide
  have hplainExpress : plainTokenL ("express" : String).data = true := by decide
  set P := (proxies.map (pushEntryLines certs dirname "proxy")).flatten with hP
  set S := (statics.map (pushEntryLines certs dirname "static")).flatten with hS
  set E := (servers.map (pushEntryLines certs dirname "express")).flatten with hE
  have hbreaks : ∀ line ∈ P ++ S ++ E, '\n' ∉ line ∧ '\r' ∉ line := by
    intro line hline
    rcases List.mem_append.1 hline with h2 | hE'
    rotate_left
    · obtain ⟨blk, hblk, hin⟩ := List.mem_flatten.1 hE'
      obtain ⟨d, hd, he⟩ := List.mem_map.1 hblk
      subst he
      have hg := hs d hd
      exact pushEntryLines_no_break certs dirname "express" d hplainExpress
        hg.1 hg.2.1 hg.2.2 line hin
    rcases List.mem_append.1 h2 with hP' | hS'
    · obtain ⟨blk, hblk, hin⟩ := List.mem_flatten.1 hP'
      obtain ⟨d, hd, he⟩ := List.mem_map.1 hblk
      subst he
      have hg := hp d hd
      exact pushEntryLines_no_break certs dirname "proxy" d hplainProxy
        hg.1 hg.2.1 hg.2.2 line hin
    · obtain ⟨blk, hblk, hin⟩ := List.mem_flatten.1 hS'
      obtain ⟨d, hd, he⟩ := List.mem_map.1 hblk
      subst he
      have hg := hst d hd
      exact pushEntryLines_no_break certs dirname "static" d hplainStatic
        hg.1 hg.2.1 hg.2.2 line hin
  have hparse : parseCfgLines (P ++ S ++ E) none []
      = some (proxies.map (blockEntry dirname "proxy")
          ++ statics.map (blockEntry dirname "static")
          ++ servers.map (blockEntry dirname "express")) := by
    rw [List.append_assoc]
    rw [parse_blocks "proxy" hplainProxy certs dirname proxies hp _ _]
    rw [parse_blocks "static" hplainStatic certs dirname statics hst _ _]
    rw [show E = E ++ [] from (List.append_nil _).symm]
    rw [parse_blocks "express" hplainExpress certs dirname servers hs _ _]
    rw [show parseCfgLines [] none
        (([] ++ proxies.map (blockEntry dirname "proxy"))
          ++ statics.map (blockEntry dirname "static")
          ++ servers.map (blockEntry dirname "express"))
      = some (flushEntry none
        (([] ++ proxies.map (blockEntry dirname "proxy"))
          ++ statics.map (blockEntry dirname "static")
          ++ servers.map (blockEntry dirname "express"))) from rfl]
    simp [flushEntry]
  have hsplit : splitLinesL (writeConfigFile servers statics proxies certs dirname).data
      = if P ++ S ++ E = [] then [[]] else P ++ S ++ E := by
    by_cases hnil : P ++ S ++ E = []
    · rw [if_pos hnil]
      show splitLinesL (joinLinesL (P ++ S ++ E)) = [[]]
      rw [hnil]
      rfl
    · rw [if_neg hnil]
      exact splitLines_joinLines _ hnil hbreaks
  by_cases hnil : P ++ S ++ E = []
  · -- everything is empty: the written file is empty and parses to empty sets
    simp only [List.append_eq_nil] at hnil
    obtain ⟨⟨hP0, hS0⟩, hE0⟩ := hnil
    have hps : proxies = [] := flatten_blocks_eq_nil certs dirname "proxy" proxies hP0
    have hss : statics = [] := flatten_blocks_eq_nil certs dirname "static" statics hS0
    have hes : servers = [] := flatten_blocks_eq_nil certs dirname "express" servers hE0
    subst hps; subst hss; subst hes
    refine ⟨⟨[], [], []⟩, ?_, rfl, rfl, rfl, rfl⟩
    unfold parseConfigFile
    rw [hsplit]
    rw [if_pos (by simp [hP, hS, hE])]
    rfl
  · refine ⟨⟨mapEntries (proxies.map (blockEntry dirname "proxy")
        ++ statics.map (blockEntry dirname "static")
        ++ servers.map (blockEntry dirname "express")) "express" dirname,
      mapEntries (proxies.map (blockEntry dirname "proxy")
        ++ statics.map (blockEntry dirname "static")
        ++ servers.map (blockEntry dirname "express")) "static" dirname,
      mapEntries (proxies.map (blockEntry dirname "proxy")
        ++ statics.map (blockEntry dirname "static")
        ++ servers.map (blockEntry dirname "express")) "proxy" dirname⟩,
      ?_, ?_, ?_, ?_, ?_⟩
    · unfold parseConfigFile
      rw [hsplit, if_neg hnil, hparse]
      rfl
    · -- proxies round-trip with targets
      dsimp only
      rw [mapEntries_append, mapEntries_append]
      rw [mapEntries_blocks_same dirname "proxy" proxies (fun d hd => (hp d hd).1)]
      rw [mapEntries_blocks_other dirname "static" "proxy" (by decide) statics]
      rw [mapEntries_blocks_other dirname "express" "proxy" (by decide) servers]
      simp only [List.append_nil, List.map_map]
      apply List.map_congr_left
      intro d hd
      simp only [Function.comp_apply]
      rw [blockEntry_target_proxy dirname d (hp d hd).2.2]
    · dsimp only
      rw [mapEntries_append, mapEntries_append]
      rw [mapEntries_blocks_same dirname "static" statics (fun d hd => (hst d hd).1)]
      rw [mapEntries_blocks_other dirname "proxy" "static" (by decide) proxies]
      rw [mapEntries_blocks_other dirname "express" "static" (by decide) servers]
      simp [List.map_map, Function.comp]
    · dsimp only
      rw [mapEntries_append, mapEntries_append]
      rw [mapEntries_blocks_same dirname "express" servers (fun d hd => (hs d hd).1)]
      rw [mapEntries_blocks_other dirname "proxy" "express" (by decide) proxies]
      rw [mapEntries_blocks_other dirname "static" "express" (by decide) statics]
      simp [List.map_map, Function.comp]
    · -- writing the parsed configuration reproduces the same file
      dsimp only
      rw [mapEntries_append, mapEntries_append,
        mapEntries_append, mapEntries_append,
        mapEntries_append, mapEntries_append]
      rw [mapEntries_blocks_same dirname "proxy" proxies (fun d hd => (hp d hd).1)]
      rw [mapEntries_blocks_same dirname "static" statics (fun d hd => (hst d hd).1)]
      rw [mapEntries_blocks_same dirname "express" servers (fun d hd => (hs d hd).1)]
      rw [mapEntries_blocks_other dirname "static" "proxy" (by decide) statics]
      rw [mapEntries_blocks_other dirname "express" "proxy" (by decide) servers]
      rw [mapEntries_blocks_other dirname "proxy" "static" (by decide) proxies]
      rw [mapEntries_blocks_other dirname "express" "static" (by decide) servers]
      rw [mapEntries_blocks_other dirname "proxy" "express" (by decide) proxies]
      rw [mapEntries_blocks_other dirname "static" "express" (by decide) statics]
      simp only [List.append_nil, List.nil_append, List.map_map]
      unfold writeConfigFile
      congr 1
      have hcongr : ∀ (ty : String) (ds : List CfgDescriptor),
          (∀ d ∈ ds, goodCfgPath d.absolutePath = true) →
          ds.map ((pushEntryLines certs dirname ty) ∘
            (toCfgDescriptor ∘ (fun d => (⟨d.absolutePath, basenameOf d.absolutePath,
              d.domains, (blockEntry dirname ty d).target⟩ : ParsedCfgEntry))))
          = ds.map (pushEntryLines certs dirname ty) := by
        intro ty ds hgood
        apply List.map_congr_left
        intro d hd
        simp only [Function.comp_apply, toCfgDescriptor]
        refine pushEntryLines_congr certs dirname ty d
          ⟨basenameOf d.absolutePath, d.absolutePath, d.domains, (blockEntry dirname ty d).target⟩
          rfl ?_ rfl (blockEntry_target_lines dirname ty d)
        exact plain_string_ne_empty _ (by
          have hq := hgood d hd
          simp only [goodCfgPath, Bool.and_eq_true] at hq
          exact hq.2)
      simp only [List.map_map]
      rw [hcongr "proxy" proxies (fun d hd => (hp d hd).1)]
      rw [hcongr "static" statics (fun d hd => (hst d hd).1)]
      rw [hcongr "express" servers (fun d hd => (hs d hd).1)]


/-- Witness for `claim9_amended`: the round-trip and idempotence hold at a
concrete descriptor set with one server, one static and one proxy descriptor. -/
theorem claim9_amended_witness :
    (∀ d ∈ ([⟨"a.hts.js", "/x/a.hts.js", ["d1", "d2"], none⟩] : List CfgDescriptor),
        goodCfgPath d.absolutePath = true
          ∧ (∀ dom ∈ d.domains, goodCfgDomain dom = true) ∧ goodCfgTarget d.target = true)
    ∧ (∀ d ∈ ([⟨"s.static.hts", "/y/s.static.hts", ["sd"], none⟩] : List CfgDescriptor),
        goodCfgPath d.absolutePath = true
          ∧ (∀ dom ∈ d.domains, goodCfgDomain dom = true) ∧ goodCfgTarget d.target = true)
    ∧ (∀ d ∈ ([⟨"f.proxy.hts", "/srv/f.proxy.hts", ["pd"],
            some "http://h:3000"⟩] : List CfgDescriptor),
        goodCfgPath d.absolutePath = true
          ∧ (∀ dom ∈ d.domains, goodCfgDomain dom = true) ∧ goodCfgTarget d.target = true)
    ∧ (∃ cfg,
        parseConfigFile
            (writeConfigFile [⟨"a.hts.js", "/x/a.hts.js", ["d1", "d2"], none⟩]
              [⟨"s.static.hts", "/y/s.static.hts", ["sd"], none⟩]
              [⟨"f.proxy.hts", "/srv/f.proxy.hts", ["pd"], some "http://h:3000"⟩]
              [⟨["d1"]⟩] "/app") "/app"
          = some cfg
        ∧ cfg.proxies.map (fun e => (e.absolutePath, e.domains, e.target))
            = [("/srv/f.proxy.hts", ["pd"], some "http://h:3000")]
        ∧ cfg.statics.map (fun e => (e.absolutePath, e.domains))
            = [("/y/s.static.hts", ["sd"])]
        ∧ cfg.servers.map (fun e => (e.absolutePath, e.domains))
            = [("/x/a.hts.js", ["d1", "d2"])]
        ∧ writeConfigFile (cfg.servers.map toCfgDescriptor) (cfg.statics.map toCfgDescriptor)
            (cfg.proxies.map toCfgDescriptor) [⟨["d1"]⟩] "/app"
            = writeConfigFile [⟨"a.hts.js", "/x/a.hts.js", ["d1", "d2"], none⟩]
              [⟨"s.static.hts", "/y/s.static.hts", ["sd"], none⟩]
              [⟨"f.proxy.hts", "/srv/f.proxy.hts", ["pd"], some "http://h:3000"⟩]
              [⟨["d1"]⟩] "/app") :=
  ⟨by decide, by decide, by decide,
    claim9_amended [⟨"a.hts.js", "/x/a.hts.js", ["d1", "d2"], none⟩]
      [⟨"s.static.hts", "/y/s.static.hts", ["sd"], none⟩]
      [⟨"f.proxy.hts", "/srv/f.proxy.hts", ["pd"], some "http://h:3000"⟩]
      [⟨["d1"]⟩] "/app" (by decide) (by decide) (by decide)⟩

end HttpsExpresses
